import Mathlib

/-!
# MatrixExpressionTemplates: a shallow embedding of `MatrixExpressionTemplates.h`

The header defines an owning row-major `Matrix<T>` and two lazy expression nodes,
`MatrixTranspose` and `MatrixAdd`, that hold references to their operands.

Modelling choices.

* `int` is `Int`.  The one `int` computation on a shape the caller chooses freely, the element
  count `rows * cols` of the size constructor, is reduced to 32-bit two's complement
  (`wrapInt`), which is what the compiled multiplication leaves: a count that wraps to a
  negative `int` makes `new T[n]` throw, one that wraps to a non-negative `int` gives a buffer
  of the wrapped length.  Elsewhere `int` arithmetic is plain `Int` arithmetic: the element
  count and the offsets `cols * i + j` of a matrix in its class invariant (`Matrix.repOk`,
  which bounds the element count by `INT_MAX`) cannot overflow, see
  `Matrix.offset_no_overflow`.  A loop counter that can never meet its bound is reported as
  `outOfFuel`.
* `T* arr_` is `Option (List T)`: `none` is `nullptr`, `some a` is a live buffer of `a.length`
  elements.  An access through `nullptr` or outside the buffer is `none` / `Outcome.undefined`.
* Expression nodes hold C++ references.  Matrices therefore live in a store indexed by object
  identity, a leaf of an expression names a matrix of the store, and evaluating an expression
  reads the store as it is at that moment.  This keeps aliasing between the target of an
  assignment and the operands of its right-hand side.
* `new T[n]` leaves the elements indeterminate: the fresh contents are a parameter `garbage`.
  Memory is unbounded: `new T[n]` with `n >= 0` does not throw `std::bad_alloc`.
* the `for (...; x != bound; ++x)` loops take a fuel argument, one unit per evaluation of the
  loop condition.
* the element type `T` brings its `operator+` as `Add T`; its `operator!=`, used by
  `operator==` on matrices, is the negation of equality (`DecidableEq T`).
* a range-for over a matrix walks the pointers from `begin()` to `end()`: a position is its
  distance `k` from `begin()`.
-/

namespace met

/-- The struct `MatrixSize`. -/
structure MatrixSize where
  rows : Int
  cols : Int
deriving DecidableEq, Repr

/-- The largest `int` (32 bits). -/
def INT_MAX : Int := 2147483647

/-- The `int` that a computation with the mathematical result `x` leaves: `x` reduced to
32-bit two's complement. -/
def wrapInt (x : Int) : Int := (x + 2147483648) % 4294967296 - 2147483648

/-- The data members of `Matrix<T>`: `matSize_` and the buffer pointer `arr_`. -/
structure Matrix (T : Type) where
  matSize_ : MatrixSize
  arr_ : Option (List T)
deriving Repr

/-- The matrices that exist, by object identity. -/
abbrev Store (T : Type) := Nat → Matrix T

/-- Replace the object `k` of the store. -/
def Store.set {T : Type} (σ : Store T) (k : Nat) (m : Matrix T) : Store T :=
  fun i => if i = k then m else σ i

/-- The exceptions the program can throw: the library's own `mat_expers_size_diff_exception`
and the `std::bad_array_new_length` of `new T[n]` with a negative `n`. -/
inductive Exn where
  | mat_expers_size_diff_exception
  | bad_array_new_length
deriving DecidableEq, Repr

/-- How a call ends: normally with the store it leaves and a value, with an exception and the
store as it is when the exception is thrown, in undefined behaviour, or still looping when the
fuel is gone. -/
inductive Outcome (T : Type) (α : Type) where
  | ok (σ : Store T) (a : α)
  | raised (x : Exn) (σ : Store T)
  | undefined
  | outOfFuel

/-- Sequencing of two steps: the second runs on the store the first leaves. -/
def Outcome.andThen {T α β : Type} (o : Outcome T α) (f : Store T → α → Outcome T β) :
    Outcome T β :=
  match o with
  | .ok σ a => f σ a
  | .raised x σ => .raised x σ
  | .undefined => .undefined
  | .outOfFuel => .outOfFuel

/-- An expression: `Matrix<T>` as a leaf (a reference to the object `id`), `MatrixTranspose`
holding `exper_`, `MatrixAdd` holding `exper1_` and `exper2_`. -/
inductive Expr where
  | mat (id : Nat)
  | transpose (exper : Expr)
  | add (exper1 exper2 : Expr)
deriving DecidableEq, Repr

section Matrix

variable {T : Type}

/-- `Matrix<T>::size`. -/
def Matrix.size (m : Matrix T) : MatrixSize := m.matSize_

/-- `Matrix<T>::isEmpty`: `arr_ == nullptr`. -/
def Matrix.isEmpty (m : Matrix T) : Bool := m.arr_.isNone

/-- The index expression `matSize_.cols * i + j` of both `operator()`. -/
def Matrix.offset (m : Matrix T) (i j : Int) : Int := m.matSize_.cols * i + j

/-- `Matrix<T>::operator()(i, j) const`: `arr_[matSize_.cols * i + j]`, unchecked. -/
def Matrix.call (m : Matrix T) (i j : Int) : Option T :=
  match m.arr_ with
  | none => none
  | some a => if 0 ≤ m.offset i j then a[(m.offset i j).toNat]? else none

/-- A write through the reference returned by the non-const `Matrix<T>::operator()(i, j)`. -/
def Matrix.put (m : Matrix T) (i j : Int) (v : T) : Option (Matrix T) :=
  match m.arr_ with
  | none => none
  | some a =>
    if 0 ≤ m.offset i j ∧ m.offset i j < a.length then
      some { m with arr_ := some (a.set (m.offset i j).toNat v) }
    else none

/-- A write through the pointer `begin() + k`. -/
def Matrix.store (m : Matrix T) (k : Nat) (v : T) : Option (Matrix T) :=
  match m.arr_ with
  | none => none
  | some a => if k < a.length then some { m with arr_ := some (a.set k v) } else none

/-- `Matrix<T>::Matrix(const MatrixSize)`, constructing the object `n`: no buffer when a
dimension is zero, otherwise `new T[matSize_.rows * matSize_.cols]`, the count being the `int`
product of two `int`s: a negative count throws `std::bad_array_new_length`. -/
def Matrix.ctorSize (σ : Store T) (n : Nat) (matSize : MatrixSize) (garbage : Nat → T) :
    Outcome T Unit :=
  if matSize.rows = 0 ∨ matSize.cols = 0 then
    .ok (σ.set n ⟨matSize, none⟩) ()
  else if wrapInt (matSize.rows * matSize.cols) < 0 then
    .raised .bad_array_new_length σ
  else
    .ok (σ.set n ⟨matSize,
      some ((List.range (wrapInt (matSize.rows * matSize.cols)).toNat).map garbage)⟩) ()

/-- The loop of `Matrix<T>::fill`: `for (p = begin() + k; p != end(); ++p) *p = val`. -/
def Matrix.fillLoop (m : Nat) (val : T) : Nat → Int → Store T → Outcome T Unit
  | 0, _, _ => .outOfFuel
  | fuel + 1, k, σ =>
    if k = (σ m).matSize_.rows * (σ m).matSize_.cols then .ok σ ()
    else
      match (σ m).store k.toNat val with
      | none => .undefined
      | some m' => Matrix.fillLoop m val fuel (k + 1) (σ.set m m')

/-- `Matrix<T>::fill`. -/
def Matrix.fill (σ : Store T) (m : Nat) (val : T) (fuel : Nat) : Outcome T Unit :=
  Matrix.fillLoop m val fuel 0 σ

/-- `Matrix<T>::steal`, called on the object `r` with `other` the object `o`. -/
def Matrix.steal (σ : Store T) (r o : Nat) : Outcome T Unit :=
  if (σ r).size ≠ (σ o).size then
    .raised .mat_expers_size_diff_exception σ
  else
    -- delete[] arr_; arr_ = nullptr;
    let σ1 := σ.set r { σ r with arr_ := none }
    -- std::swap(arr_, other.arr_);
    let a := (σ1 r).arr_
    let b := (σ1 o).arr_
    let σ2 := σ1.set r { σ1 r with arr_ := b }
    let σ3 := σ2.set o { σ2 o with arr_ := a }
    -- other.matSize_ = MatrixSize{ 0, 0 };
    .ok (σ3.set o { σ3 o with matSize_ := ⟨0, 0⟩ }) ()

end Matrix

section Expression

variable {T : Type}

/-- The `size()` of each node: the leaf's `matSize_`, `MatrixTranspose::size` (rows and cols
swapped), `MatrixAdd::size` (that of `exper1_`). -/
def Expr.size (σ : Store T) : Expr → MatrixSize
  | .mat id => (σ id).size
  | .transpose exper => ⟨(Expr.size σ exper).cols, (Expr.size σ exper).rows⟩
  | .add exper1 _ => Expr.size σ exper1

/-- The `operator()(row, col)` of each node: the leaf's element, `exper_(col, row)` for
`MatrixTranspose`, `exper1_(row, col) + exper2_(row, col)` for `MatrixAdd`. -/
def Expr.call [Add T] (σ : Store T) : Expr → Int → Int → Option T
  | .mat id, row, col => (σ id).call row col
  | .transpose exper, row, col => Expr.call σ exper col row
  | .add exper1 exper2, row, col =>
    match Expr.call σ exper1 row col, Expr.call σ exper2 row col with
    | some a, some b => some (a + b)
    | _, _ => none

/-- The function `transpose`: wraps its argument in a `MatrixTranspose`. -/
def transpose (σ : Store T) (matExpr : Expr) : Outcome T Expr :=
  .ok σ (.transpose matExpr)

/-- `MatrixAdd::MatrixAdd`: throws when the operands' sizes differ. -/
def MatrixAdd.ctor (σ : Store T) (exper1 exper2 : Expr) : Outcome T Expr :=
  if Expr.size σ exper1 ≠ Expr.size σ exper2 then
    .raised .mat_expers_size_diff_exception σ
  else .ok σ (.add exper1 exper2)

/-- `operator+`: builds the `MatrixAdd` of its two arguments. -/
def add (σ : Store T) (matExpr1 matExpr2 : Expr) : Outcome T Expr :=
  MatrixAdd.ctor σ matExpr1 matExpr2

/-- The inner loop of `assign_from_mat_expression`, for the object `m` and a fixed `row`:
`for (col; col != matSize_.cols; ++col) (*this)(row, col) = matrixExpr(row, col)`. -/
def Matrix.assignCols [Add T] (m : Nat) (e : Expr) (row : Int) :
    Nat → Int → Store T → Outcome T Unit
  | 0, _, _ => .outOfFuel
  | fuel + 1, col, σ =>
    if col = (σ m).matSize_.cols then .ok σ ()
    else
      match Expr.call σ e row col with
      | none => .undefined
      | some v =>
        match (σ m).put row col v with
        | none => .undefined
        | some m' => Matrix.assignCols m e row fuel (col + 1) (σ.set m m')

/-- The outer loop of `assign_from_mat_expression`:
`for (row; row != matSize_.rows; ++row)`; every run of the inner loop gets `fuel0`. -/
def Matrix.assignRows [Add T] (m : Nat) (e : Expr) (fuel0 : Nat) :
    Nat → Int → Store T → Outcome T Unit
  | 0, _, _ => .outOfFuel
  | fuel + 1, row, σ =>
    if row = (σ m).matSize_.rows then .ok σ ()
    else
      (Matrix.assignCols m e row fuel0 0 σ).andThen
        fun σ' _ => Matrix.assignRows m e fuel0 fuel (row + 1) σ'

/-- `Matrix<T>::assign_from_mat_expression`, called on the object `m`. -/
def Matrix.assign_from_mat_expression [Add T] (σ : Store T) (m : Nat) (e : Expr) (fuel : Nat) :
    Outcome T Unit :=
  Matrix.assignRows m e fuel fuel 0 σ

/-- `Matrix<T>::Matrix(const MatrixExpression<T, Expression>&)`, constructing the object `n`:
delegates to the size constructor, then assigns. -/
def Matrix.ctorExpr [Add T] (σ : Store T) (n : Nat) (e : Expr) (garbage : Nat → T)
    (fuel : Nat) : Outcome T Unit :=
  (Matrix.ctorSize σ n (Expr.size σ e) garbage).andThen
    fun σ' _ => Matrix.assign_from_mat_expression σ' n e fuel

/-- `Matrix<T>::operator=(const MatrixExpression<T, Expression>&)`, called on the object `m`. -/
def Matrix.assignExpr [Add T] (σ : Store T) (m : Nat) (e : Expr) (fuel : Nat) :
    Outcome T Unit :=
  if (σ m).size ≠ Expr.size σ e then
    .raised .mat_expers_size_diff_exception σ
  else Matrix.assign_from_mat_expression σ m e fuel

end Expression

/-- The set-up of the test case `operator+`: a matrix `A` of size `s` is constructed and
filled with `a`, then a matrix `B` of size `s` is constructed and filled with `b`. -/
def filledPair {T : Type} (σ : Store T) (A B : Nat) (s : MatrixSize) (a b : T)
    (garbageA garbageB : Nat → T) (fuel : Nat) : Outcome T Unit :=
  (Matrix.ctorSize σ A s garbageA).andThen fun σ1 _ =>
    (Matrix.fill σ1 A a fuel).andThen fun σ2 _ =>
      (Matrix.ctorSize σ2 B s garbageB).andThen fun σ3 _ =>
        Matrix.fill σ3 B b fuel


/-! ## Move and copy, element write, iteration, `operator==` -/

section MoreOperations

variable {T : Type}

/-- `Matrix<T>::Matrix(Matrix&&)`, constructing the object `n` from `other`, the object `o`:
`matSize_{ std::exchange(other.matSize_, MatrixSize{ 0, 0 }) }`, then
`arr_{ std::exchange(other.arr_, nullptr) }`. -/
def Matrix.ctorMove (σ : Store T) (n o : Nat) : Outcome T Unit :=
  -- matSize_{ std::exchange(other.matSize_, MatrixSize{ 0, 0 }) }
  let oldSize := (σ o).matSize_
  let σ1 := σ.set o { σ o with matSize_ := ⟨0, 0⟩ }
  let σ2 := σ1.set n { σ1 n with matSize_ := oldSize }
  -- arr_{ std::exchange(other.arr_, nullptr) }
  let oldArr := (σ2 o).arr_
  let σ3 := σ2.set o { σ2 o with arr_ := none }
  .ok (σ3.set n { σ3 n with arr_ := oldArr }) ()

/-- `Matrix<T>::Matrix(const Matrix&)`, constructing the object `n` from `other`, the object
`s`: delegates to the size constructor with `other.size()`, then assigns from `other`. -/
def Matrix.ctorCopy [Add T] (σ : Store T) (n s : Nat) (garbage : Nat → T) (fuel : Nat) :
    Outcome T Unit :=
  (Matrix.ctorSize σ n (σ s).size garbage).andThen
    fun σ' _ => Matrix.assign_from_mat_expression σ' n (.mat s) fuel

/-- `Matrix<T>::operator=(const Matrix&)`, called on the object `d` with `other` the object
`s`: the expression assignment from `other` seen as a `MatrixExpression`. -/
def Matrix.assignCopy [Add T] (σ : Store T) (d s : Nat) (fuel : Nat) : Outcome T Unit :=
  Matrix.assignExpr σ d (.mat s) fuel

/-- The statement `m(i, j) = v`: a write through the non-const `operator()` of the
object `m`. -/
def Matrix.write (σ : Store T) (m : Nat) (i j : Int) (v : T) : Outcome T Unit :=
  match (σ m).put i j v with
  | none => .undefined
  | some m' => .ok (σ.set m m') ()

/-- A read through the pointer `begin() + k`. -/
def Matrix.deref (m : Matrix T) (k : Nat) : Option T :=
  match m.arr_ with
  | none => none
  | some a => a[k]?

/-- The statement `*(m.begin() + k) = v`: a write through the `k`-th position of the
iteration of the object `m`. -/
def Matrix.writeAt (σ : Store T) (m : Nat) (k : Nat) (v : T) : Outcome T Unit :=
  match (σ m).store k v with
  | none => .undefined
  | some m' => .ok (σ.set m m') ()

/-- The range-for `for (T elem : m)`, from the pointer `begin() + k` on:
`for (p = begin() + k; p != end(); ++p)` yields `*p`; the value is the list of the elements
yielded, in order. -/
def Matrix.iterLoop (m : Nat) : Nat → Int → Store T → Outcome T (List T)
  | 0, _, _ => .outOfFuel
  | fuel + 1, k, σ =>
    if k = (σ m).matSize_.rows * (σ m).matSize_.cols then .ok σ []
    else
      match (σ m).deref k.toNat with
      | none => .undefined
      | some v =>
        (Matrix.iterLoop m fuel (k + 1) σ).andThen fun σ' vs => .ok σ' (v :: vs)

/-- The range-for over the whole of the object `m`, from `begin()` to `end()`. -/
def Matrix.iterate (σ : Store T) (m : Nat) (fuel : Nat) : Outcome T (List T) :=
  Matrix.iterLoop m fuel 0 σ

/-- The inner loop of `operator==`, for a fixed `i`:
`for (j; j != leftSize.cols; ++j) if (left(i, j) != right(i, j)) return false;`.
The value is `false` when the function has returned `false`, `true` when the loop has run to
its end. -/
def Matrix.eqCols [DecidableEq T] (σ : Store T) (left right : Nat) (leftSize : MatrixSize)
    (i : Int) : Nat → Int → Outcome T Bool
  | 0, _ => .outOfFuel
  | fuel + 1, j =>
    if j = leftSize.cols then .ok σ true
    else
      match (σ left).call i j, (σ right).call i j with
      | some a, some b =>
        if a ≠ b then .ok σ false
        else Matrix.eqCols σ left right leftSize i fuel (j + 1)
      | _, _ => .undefined

/-- The outer loop of `operator==`: `for (i; i != leftSize.rows; ++i)`, followed by
`return true`; every run of the inner loop gets `fuel0`. -/
def Matrix.eqRows [DecidableEq T] (σ : Store T) (left right : Nat) (leftSize : MatrixSize)
    (fuel0 : Nat) : Nat → Int → Outcome T Bool
  | 0, _ => .outOfFuel
  | fuel + 1, i =>
    if i = leftSize.rows then .ok σ true
    else
      match Matrix.eqCols σ left right leftSize i fuel0 0 with
      | .ok _ true => Matrix.eqRows σ left right leftSize fuel0 fuel (i + 1)
      | other => other

/-- The function `operator==(const Matrix<T>&, const Matrix<T>&)` on the objects `left` and
`right`. -/
def Matrix.equals [DecidableEq T] (σ : Store T) (left right : Nat) (fuel : Nat) :
    Outcome T Bool :=
  if (σ left).size ≠ (σ right).size then .ok σ false
  else Matrix.eqRows σ left right (σ left).size fuel fuel 0

/-- The leaf accesses of one evaluation of `operator()(row, col)` on an expression: each
entry is a leaf matrix with the index pair its `operator()` is called at. -/
def Expr.accesses : Expr → Int → Int → List (Nat × Int × Int)
  | .mat id, row, col => [(id, row, col)]
  | .transpose exper, row, col => Expr.accesses exper col row
  | .add exper1 exper2, row, col =>
    Expr.accesses exper1 row col ++ Expr.accesses exper2 row col

/-- A public operation of `Matrix<T>`, with the objects it is called on and its arguments. -/
inductive Op (T : Type) where
  | ctorSize (n : Nat) (matSize : MatrixSize) (garbage : Nat → T)
  | ctorExpr (n : Nat) (e : Expr) (garbage : Nat → T) (fuel : Nat)
  | ctorCopy (n s : Nat) (garbage : Nat → T) (fuel : Nat)
  | ctorMove (n o : Nat)
  | assignExpr (m : Nat) (e : Expr) (fuel : Nat)
  | assignCopy (d s : Nat) (fuel : Nat)
  | steal (r o : Nat)
  | fill (m : Nat) (val : T) (fuel : Nat)
  | write (m : Nat) (i j : Int) (v : T)
  | writeAt (m : Nat) (k : Nat) (v : T)

/-- Running a public operation on the store. -/
def Op.run [Add T] (σ : Store T) : Op T → Outcome T Unit
  | .ctorSize n matSize garbage => Matrix.ctorSize σ n matSize garbage
  | .ctorExpr n e garbage fuel => Matrix.ctorExpr σ n e garbage fuel
  | .ctorCopy n s garbage fuel => Matrix.ctorCopy σ n s garbage fuel
  | .ctorMove n o => Matrix.ctorMove σ n o
  | .assignExpr m e fuel => Matrix.assignExpr σ m e fuel
  | .assignCopy d s fuel => Matrix.assignCopy σ d s fuel
  | .steal r o => Matrix.steal σ r o
  | .fill m val fuel => Matrix.fill σ m val fuel
  | .write m i j v => Matrix.write σ m i j v
  | .writeAt m k v => Matrix.writeAt σ m k v

/-- The store a call leaves behind when the program goes on after it: after a normal return,
or after an exception has been caught. -/
def Outcome.after {α : Type} : Outcome T α → Option (Store T)
  | .ok σ _ => some σ
  | .raised _ σ => some σ
  | .undefined => none
  | .outOfFuel => none

/-- The store before any matrix has been constructed: every slot is an empty object. -/
def Store.initial : Store T := fun _ => ⟨⟨0, 0⟩, none⟩

/-- The operation computes no element count that overflows `int`: a size construction is
called with a shape whose product `rows * cols` lies in the range of `int`.  (The other
constructors take their shape from an existing matrix.) -/
def Op.noOverflow : Op T → Prop
  | .ctorSize _ matSize _ => wrapInt (matSize.rows * matSize.cols) = matSize.rows * matSize.cols
  | _ => True

instance (op : Op T) : Decidable op.noOverflow := by
  cases op <;> unfold Op.noOverflow <;> exact inferInstance

/-- The stores a program can reach from `Store.initial` by public operations none of which
overflows `int` in an element count. -/
inductive Reachable [Add T] : Store T → Prop where
  | initial : Reachable Store.initial
  | step (σ σ' : Store T) (op : Op T) : Reachable σ → op.noOverflow →
      (Op.run σ op).after = some σ' → Reachable σ'

end MoreOperations

/-! ## Invariants and well-formedness -/

section Predicates

variable {T : Type}

/-- The class invariant the constructors establish: the buffer is absent exactly when a
dimension is zero, and a present buffer has `rows * cols` elements, a count the size
constructor has computed as an `int`. -/
def Matrix.repOk (m : Matrix T) : Prop :=
  match m.arr_ with
  | none => m.matSize_.rows = 0 ∨ m.matSize_.cols = 0
  | some a =>
    m.matSize_.rows ≠ 0 ∧ m.matSize_.cols ≠ 0 ∧
      (a.length : Int) = m.matSize_.rows * m.matSize_.cols ∧
      m.matSize_.rows * m.matSize_.cols ≤ INT_MAX

instance (m : Matrix T) : Decidable m.repOk := by
  unfold Matrix.repOk
  cases m.arr_ <;> exact inferInstance

/-- The element count `rows * cols` of the shape is computed without overflow: the product
lies in the range of `int`. -/
def MatrixSize.countFits (s : MatrixSize) : Prop := wrapInt (s.rows * s.cols) = s.rows * s.cols

instance (s : MatrixSize) : Decidable s.countFits := by
  unfold MatrixSize.countFits
  exact inferInstance

/-- The index pair `(i, j)` lies inside the shape `s`. -/
def MatrixSize.inRange (s : MatrixSize) (i j : Int) : Prop :=
  0 ≤ i ∧ i < s.rows ∧ 0 ≤ j ∧ j < s.cols

instance (s : MatrixSize) (i j : Int) : Decidable (s.inRange i j) := by
  unfold MatrixSize.inRange
  exact inferInstance

/-- An expression tree as the program can build it over the store `σ`: every leaf is a matrix
in its class invariant, every `MatrixAdd` node has passed the check of its constructor. -/
def Expr.wf (σ : Store T) : Expr → Prop
  | .mat id => (σ id).repOk
  | .transpose exper => Expr.wf σ exper
  | .add exper1 exper2 =>
    Expr.wf σ exper1 ∧ Expr.wf σ exper2 ∧ Expr.size σ exper1 = Expr.size σ exper2

instance Expr.decidableWf (σ : Store T) : (e : Expr) → Decidable (Expr.wf σ e)
  | .mat id => by unfold Expr.wf; exact inferInstance
  | .transpose exper => by unfold Expr.wf; exact Expr.decidableWf σ exper
  | .add exper1 exper2 => by
    unfold Expr.wf
    have := Expr.decidableWf σ exper1
    have := Expr.decidableWf σ exper2
    exact inferInstance

/-- The matrix `m` is an operand of the expression. -/
def Expr.refers (m : Nat) : Expr → Bool
  | .mat id => id == m
  | .transpose exper => Expr.refers m exper
  | .add exper1 exper2 => Expr.refers m exper1 || Expr.refers m exper2

/-- With `flipped = false`: every occurrence of the matrix `m` in the expression lies under an
even number of `MatrixTranspose` nodes.  With `flipped = true`: under an odd number. -/
def Expr.straight (m : Nat) : Expr → Bool → Bool
  | .mat id, flipped => id != m || !flipped
  | .transpose exper, flipped => Expr.straight m exper (!flipped)
  | .add exper1 exper2, flipped =>
    Expr.straight m exper1 flipped && Expr.straight m exper2 flipped

/-- The loop invariant of `assign_from_mat_expression` on the object `m`, started in the store
`σ0`, when the loops stand at `(row, col)`: only `m` has changed, it has kept its shape and its
class invariant, the cells before `(row, col)` in row-major order hold the value the
expression had in `σ0`, the other cells hold what they held in `σ0`. -/
structure AssignInv [Add T] (σ0 : Store T) (m : Nat) (e : Expr) (row col : Int)
    (σ : Store T) : Prop where
  other : ∀ k, k ≠ m → σ k = σ0 k
  shape : (σ m).matSize_ = (σ0 m).matSize_
  rep : (σ m).repOk
  done : ∀ i j, (σ0 m).matSize_.inRange i j → (i < row ∨ (i = row ∧ j < col)) →
    (σ m).call i j = Expr.call σ0 e i j
  todo : ∀ i j, (σ0 m).matSize_.inRange i j → ¬ (i < row ∨ (i = row ∧ j < col)) →
    (σ m).call i j = (σ0 m).call i j

/-- The expression contains no `MatrixTranspose` node. -/
def Expr.transposeFree : Expr → Bool
  | .mat _ => true
  | .transpose _ => false
  | .add exper1 exper2 => Expr.transposeFree exper1 && Expr.transposeFree exper2

/-- Every object of the store is in its class invariant. -/
def Store.inv (σ : Store T) : Prop := ∀ k, (σ k).repOk

/-- The store `σ'` differs from `σ` at most in the contents of the buffer of the object `m`:
the other objects, the shape of `m` and the length of its buffer are the same. -/
def Store.sameBut (m : Nat) (σ σ' : Store T) : Prop :=
  (∀ k, k ≠ m → σ' k = σ k) ∧ (σ' m).matSize_ = (σ m).matSize_ ∧
    (σ' m).arr_.map List.length = (σ m).arr_.map List.length

/-- The matrix of size `s` with every element equal to `v`. -/
def Matrix.filled (s : MatrixSize) (v : T) : Matrix T :=
  ⟨s, if s.rows = 0 ∨ s.cols = 0 then none
    else some (List.replicate (s.rows * s.cols).toNat v)⟩

end Predicates

/-! ## Concrete stores used by the witnesses -/

/-- A store in which every object is the 2x2 matrix with rows `1 2` and `3 4`. -/
def store22 : Store Int := fun _ => ⟨⟨2, 2⟩, some [1, 2, 3, 4]⟩

/-- A store whose object `0` is the 2x2 matrix with rows `1 2` and `3 4` and whose other
objects are 1x3 matrices holding `7 8 9`. -/
def storeMixed : Store Int := fun k =>
  if k = 0 then ⟨⟨2, 2⟩, some [1, 2, 3, 4]⟩ else ⟨⟨1, 3⟩, some [7, 8, 9]⟩

/-- A store in which every object is a 3x4 matrix whose twelve elements are `0`. -/
def store34 : Store Int := fun _ => ⟨⟨3, 4⟩, some [0, 0, 0, 0, 0, 0, 0, 0, 0, 0, 0, 0]⟩

/-- The store after the program has constructed the object `0` with size 2x3 (fresh contents
all `0`) and has then move-constructed the object `1` from it. -/
def storeMoved : Store Int :=
  ((((Store.initial.set 0 ⟨⟨2, 3⟩, some [0, 0, 0, 0, 0, 0]⟩).set 0 ⟨⟨0, 0⟩,
    some [0, 0, 0, 0, 0, 0]⟩).set 1 ⟨⟨2, 3⟩, none⟩).set 0 ⟨⟨0, 0⟩, none⟩).set 1
      ⟨⟨2, 3⟩, some [0, 0, 0, 0, 0, 0]⟩

/-! ## Elements of a single matrix -/

section MatrixLemmas

variable {T : Type}

/-- A count in the range of `int` is left as it is. -/
theorem wrapInt_of_fits {x : Int} (h0 : -2147483648 ≤ x) (h1 : x ≤ INT_MAX) : wrapInt x = x := by
  unfold INT_MAX at h1
  unfold wrapInt
  omega

/-- A count the wrapping leaves as it is lies in the range of `int`. -/
theorem fits_of_wrapInt {x : Int} (h : wrapInt x = x) : -2147483648 ≤ x ∧ x ≤ INT_MAX := by
  unfold wrapInt at h
  unfold INT_MAX
  omega

theorem offset_bounds {R C i j : Int} (hi0 : 0 ≤ i) (hi : i < R) (hj0 : 0 ≤ j) (hj : j < C) :
    0 ≤ C * i + j ∧ C * i + j < R * C := by
  have hC : 0 ≤ C := by omega
  have h1 : 0 ≤ C * i := mul_nonneg hC hi0
  have h2 : C * (i + 1) ≤ C * R := mul_le_mul_of_nonneg_left (by omega) hC
  constructor
  · omega
  · nlinarith

theorem offset_inj {C i j i' j' : Int} (hj0 : 0 ≤ j) (hj : j < C) (hj0' : 0 ≤ j') (hj' : j' < C)
    (h : C * i + j = C * i' + j') : i = i' ∧ j = j' := by
  have hi : i = i' := by
    rcases lt_trichotomy i i' with hlt | heq | hgt
    · exfalso
      have : C * (i + 1) ≤ C * i' := mul_le_mul_of_nonneg_left (by omega) (by omega)
      nlinarith
    · exact heq
    · exfalso
      have : C * (i' + 1) ≤ C * i := mul_le_mul_of_nonneg_left (by omega) (by omega)
      nlinarith
  subst hi
  exact ⟨rfl, by omega⟩

/-- Inside its shape a matrix in its class invariant has a stored element. -/
theorem Matrix.cell_isSome {m : Matrix T} (hm : m.repOk) {i j : Int}
    (h : m.matSize_.inRange i j) : ∃ v, m.call i j = some v := by
  obtain ⟨hi0, hi, hj0, hj⟩ := h
  unfold Matrix.repOk at hm
  unfold Matrix.call Matrix.offset
  cases ha : m.arr_ with
  | none =>
    rw [ha] at hm
    simp only at hm
    omega
  | some a =>
    rw [ha] at hm
    simp only at hm
    obtain ⟨_, _, hlen⟩ := hm
    have hb := offset_bounds hi0 hi hj0 hj
    have hlt : (m.matSize_.cols * i + j).toNat < a.length := by omega
    simp only [hb.1, if_true]
    exact ⟨a[(m.matSize_.cols * i + j).toNat], List.getElem?_eq_getElem hlt⟩

/-- Inside its shape a write through `operator()` is defined; it keeps the shape and the
class invariant. -/
theorem Matrix.put_isSome {m : Matrix T} (hm : m.repOk) {i j : Int}
    (h : m.matSize_.inRange i j) (v : T) :
    ∃ m', m.put i j v = some m' ∧ m'.matSize_ = m.matSize_ ∧ m'.repOk := by
  obtain ⟨hi0, hi, hj0, hj⟩ := h
  unfold Matrix.repOk at hm
  unfold Matrix.put Matrix.offset
  cases ha : m.arr_ with
  | none =>
    rw [ha] at hm
    simp only at hm
    omega
  | some a =>
    rw [ha] at hm
    simp only at hm
    obtain ⟨h1, h2, hlen, hmax⟩ := hm
    have hb := offset_bounds hi0 hi hj0 hj
    have hlt : m.matSize_.cols * i + j < a.length := by
      rw [hlen]; exact hb.2
    simp only [hb.1, hlt, and_self, if_true]
    refine ⟨_, rfl, rfl, ?_⟩
    unfold Matrix.repOk
    simp only [List.length_set]
    exact ⟨h1, h2, hlen, hmax⟩

/-- A write through `operator()(i, j)` changes the element at that offset and no other. -/
theorem Matrix.call_put {m m' : Matrix T} {i j : Int} {v : T} (h : m.put i j v = some m')
    (i' j' : Int) :
    m'.call i' j' = if m.offset i' j' = m.offset i j then some v else m.call i' j' := by
  unfold Matrix.put at h
  cases ha : m.arr_ with
  | none => rw [ha] at h; simp at h
  | some a =>
    rw [ha] at h
    simp only at h
    split at h
    · rename_i hb
      simp only [Option.some.injEq] at h
      subst h
      unfold Matrix.call Matrix.offset
      simp only [ha]
      unfold Matrix.offset at hb
      by_cases heq : m.matSize_.cols * i' + j' = m.matSize_.cols * i + j
      · rw [heq]
        simp only [hb.1, if_true]
        have hlt : (m.matSize_.cols * i + j).toNat < a.length := by omega
        simp [List.getElem?_set, hlt]
      · simp only [heq, if_false]
        by_cases h0 : 0 ≤ m.matSize_.cols * i' + j'
        · simp only [h0, if_true]
          have hne : (m.matSize_.cols * i + j).toNat ≠ (m.matSize_.cols * i' + j').toNat := by
            omega
          simp [List.getElem?_set, hne]
        · simp only [h0, if_false]
    · simp at h

end MatrixLemmas

/-! ## Evaluation of expressions -/

section ExprLemmas

variable {T : Type}

theorem Store.set_same (σ : Store T) (k : Nat) (m : Matrix T) : σ.set k m k = m := by
  simp [Store.set]

theorem Store.set_other (σ : Store T) {k i : Nat} (m : Matrix T) (h : i ≠ k) :
    σ.set k m i = σ i := by
  simp [Store.set, h]

theorem MatrixSize.inRange_swap {s : MatrixSize} {r c : Int} :
    MatrixSize.inRange ⟨s.cols, s.rows⟩ r c ↔ s.inRange c r := by
  unfold MatrixSize.inRange
  constructor <;> intro h <;> simp only at h ⊢ <;> omega

/-- A well-formed expression has a value at every index pair inside its shape. -/
theorem Expr.call_isSome [Add T] {σ : Store T} {e : Expr} (hwf : Expr.wf σ e) :
    ∀ {r c : Int}, (Expr.size σ e).inRange r c → ∃ v, Expr.call σ e r c = some v := by
  induction e with
  | mat id =>
    intro r c h
    exact Matrix.cell_isSome hwf h
  | transpose exper ih =>
    intro r c h
    exact ih hwf (MatrixSize.inRange_swap.mp h)
  | add exper1 exper2 ih1 ih2 =>
    intro r c h
    obtain ⟨h1, h2, heq⟩ := hwf
    obtain ⟨a, ha⟩ := ih1 h1 (r := r) (c := c) h
    obtain ⟨b, hb⟩ := ih2 h2 (r := r) (c := c) (by rw [← heq]; exact h)
    exact ⟨a + b, by simp [Expr.call, ha, hb]⟩

/-- Two stores that agree on the operands of an expression give it the same shape. -/
theorem Expr.size_congr {σ σ' : Store T} {e : Expr}
    (h : ∀ k, Expr.refers k e = true → σ' k = σ k) : Expr.size σ' e = Expr.size σ e := by
  induction e with
  | mat id =>
    simp only [Expr.size, Matrix.size]
    rw [h id (by simp [Expr.refers])]
  | transpose exper ih =>
    simp only [Expr.size]
    rw [ih (fun k hk => h k (by simpa [Expr.refers] using hk))]
  | add exper1 exper2 ih1 _ =>
    simp only [Expr.size]
    exact ih1 (fun k hk => h k (by simp [Expr.refers, hk]))

/-- Two stores that agree on the operands of an expression give it the same elements. -/
theorem Expr.call_congr [Add T] {σ σ' : Store T} {e : Expr}
    (h : ∀ k, Expr.refers k e = true → σ' k = σ k) :
    ∀ r c : Int, Expr.call σ' e r c = Expr.call σ e r c := by
  induction e with
  | mat id =>
    intro r c
    simp only [Expr.call]
    rw [h id (by simp [Expr.refers])]
  | transpose exper ih =>
    intro r c
    simp only [Expr.call]
    exact ih (fun k hk => h k (by simpa [Expr.refers] using hk)) c r
  | add exper1 exper2 ih1 ih2 =>
    intro r c
    simp only [Expr.call]
    rw [ih1 (fun k hk => h k (by simp [Expr.refers, hk])) r c,
      ih2 (fun k hk => h k (by simp [Expr.refers, hk])) r c]

/-- Two stores that agree on the operands of an expression agree on its well-formedness. -/
theorem Expr.wf_congr {σ σ' : Store T} {e : Expr}
    (h : ∀ k, Expr.refers k e = true → σ' k = σ k) (hwf : Expr.wf σ e) : Expr.wf σ' e := by
  induction e with
  | mat id =>
    simp only [Expr.wf] at hwf ⊢
    rw [h id (by simp [Expr.refers])]
    exact hwf
  | transpose exper ih =>
    exact ih (fun k hk => h k (by simpa [Expr.refers] using hk)) hwf
  | add exper1 exper2 ih1 ih2 =>
    obtain ⟨h1, h2, heq⟩ := hwf
    have g1 : ∀ k, Expr.refers k exper1 = true → σ' k = σ k :=
      fun k hk => h k (by simp [Expr.refers, hk])
    have g2 : ∀ k, Expr.refers k exper2 = true → σ' k = σ k :=
      fun k hk => h k (by simp [Expr.refers, hk])
    exact ⟨ih1 g1 h1, ih2 g2 h2, by rw [Expr.size_congr g1, Expr.size_congr g2]; exact heq⟩

/-- A matrix that is no operand of the expression occurs in it under an even and under an odd
number of transpositions, vacuously. -/
theorem Expr.straight_of_not_refers {m : Nat} {e : Expr} (h : Expr.refers m e = false) :
    ∀ flipped, Expr.straight m e flipped = true := by
  induction e with
  | mat id =>
    intro flipped
    simp only [Expr.refers, beq_eq_false_iff_ne, ne_eq] at h
    simp [Expr.straight, h]
  | transpose exper ih =>
    intro flipped
    exact ih h (!flipped)
  | add exper1 exper2 ih1 ih2 =>
    intro flipped
    simp only [Expr.refers, Bool.or_eq_false_iff] at h
    simp [Expr.straight, ih1 h.1 flipped, ih2 h.2 flipped]

/-- The frame of one evaluation.  Let `σ'` differ from `σ` only in the matrix `m`, and let `m`
hold in `σ'` at `(r, c)` what it holds in `σ`.  An expression in which `m` occurs only under
an even number of transpositions has at `(r, c)` the same value in both stores (and one in
which it occurs only under an odd number, at `(c, r)`). -/
theorem Expr.call_frame [Add T] {σ σ' : Store T} {m : Nat} {r c : Int}
    (hother : ∀ k, k ≠ m → σ' k = σ k) (hcell : (σ' m).call r c = (σ m).call r c) (e : Expr) :
    (Expr.straight m e false = true → Expr.call σ' e r c = Expr.call σ e r c) ∧
    (Expr.straight m e true = true → Expr.call σ' e c r = Expr.call σ e c r) := by
  induction e with
  | mat id =>
    by_cases hid : id = m
    · subst hid
      constructor
      · intro _
        simpa [Expr.call] using hcell
      · intro h
        simp [Expr.straight] at h
    · simp [Expr.call, hother id hid]
  | transpose exper ih =>
    constructor
    · intro h
      simp only [Expr.call]
      exact ih.2 (by simpa [Expr.straight] using h)
    · intro h
      simp only [Expr.call]
      exact ih.1 (by simpa [Expr.straight] using h)
  | add exper1 exper2 ih1 ih2 =>
    constructor
    · intro h
      simp only [Expr.straight, Bool.and_eq_true] at h
      simp only [Expr.call]
      rw [ih1.1 h.1, ih2.1 h.2]
    · intro h
      simp only [Expr.straight, Bool.and_eq_true] at h
      simp only [Expr.call]
      rw [ih1.2 h.1, ih2.2 h.2]

end ExprLemmas

/-! ## The loops of `assign_from_mat_expression` -/

section AssignLemmas

variable {T : Type}

theorem AssignInv.next_row [Add T] {σ0 σ : Store T} {m : Nat} {e : Expr} {row : Int}
    (h : AssignInv σ0 m e row (σ0 m).matSize_.cols σ) : AssignInv σ0 m e (row + 1) 0 σ where
  other := h.other
  shape := h.shape
  rep := h.rep
  done := fun i j hin hlt => h.done i j hin (by
    obtain ⟨_, _, _, _⟩ := hin
    omega)
  todo := fun i j hin hlt => h.todo i j hin (by
    obtain ⟨_, _, _, _⟩ := hin
    omega)

/-- One run of the inner loop, `n` columns from its end, completes the row. -/
theorem Matrix.assignCols_spec [Add T] {σ0 : Store T} {m : Nat} {e : Expr}
    (hwf : Expr.wf σ0 e) (hsz : (σ0 m).size = Expr.size σ0 e)
    (hst : Expr.straight m e false = true) {row : Int} (hr0 : 0 ≤ row)
    (hr : row < (σ0 m).matSize_.rows) :
    ∀ (n fuel : Nat) (col : Int) (σ : Store T), 0 ≤ col → col + n = (σ0 m).matSize_.cols →
      n < fuel → AssignInv σ0 m e row col σ →
      ∃ σ', Matrix.assignCols m e row fuel col σ = .ok σ' () ∧
        AssignInv σ0 m e row (σ0 m).matSize_.cols σ' := by
  intro n
  induction n with
  | zero =>
    intro fuel col σ _ hcol hfuel hinv
    obtain ⟨f, rfl⟩ : ∃ f, fuel = f + 1 := ⟨fuel - 1, by omega⟩
    have hc : col = (σ0 m).matSize_.cols := by omega
    subst hc
    refine ⟨σ, ?_, hinv⟩
    simp [Matrix.assignCols, hinv.shape]
  | succ n ih =>
    intro fuel col σ hc0 hcol hfuel hinv
    obtain ⟨f, rfl⟩ : ∃ f, fuel = f + 1 := ⟨fuel - 1, by omega⟩
    have hin : (σ0 m).matSize_.inRange row col := ⟨hr0, hr, hc0, by omega⟩
    have hne : ¬ col = (σ m).matSize_.cols := by rw [hinv.shape]; omega
    have hcell : (σ m).call row col = (σ0 m).call row col :=
      hinv.todo row col hin (by omega)
    have hval : Expr.call σ e row col = Expr.call σ0 e row col :=
      (Expr.call_frame hinv.other hcell e).1 hst
    obtain ⟨v, hv⟩ := Expr.call_isSome hwf (r := row) (c := col) (by
      rw [← hsz]; exact hin)
    obtain ⟨m', hput, hshape, hrep⟩ := Matrix.put_isSome hinv.rep (i := row) (j := col) (by
      rw [hinv.shape]; exact hin) v
    have hinv' : AssignInv σ0 m e row (col + 1) (σ.set m m') := by
      refine ⟨?_, ?_, ?_, ?_, ?_⟩
      · intro k hk
        rw [Store.set_other σ m' hk]
        exact hinv.other k hk
      · rw [Store.set_same, hshape, hinv.shape]
      · rw [Store.set_same]; exact hrep
      · intro i j hij hbefore
        rw [Store.set_same, Matrix.call_put hput i j]
        by_cases heq : (σ m).offset i j = (σ m).offset row col
        · simp only [heq, if_true]
          unfold Matrix.offset at heq
          rw [hinv.shape] at heq
          obtain ⟨hi, hj⟩ := offset_inj hij.2.2.1 hij.2.2.2 hin.2.2.1 hin.2.2.2 heq
          rw [hi, hj, hv]
        · simp only [heq, if_false]
          refine hinv.done i j hij ?_
          rcases hbefore with h1 | ⟨h1, h2⟩
          · exact Or.inl h1
          · refine Or.inr ⟨h1, ?_⟩
            have : j ≠ col := by
              intro hjc
              exact heq (by rw [h1, hjc])
            omega
      · intro i j hij hnot
        rw [Store.set_same, Matrix.call_put hput i j]
        have heq : ¬ (σ m).offset i j = (σ m).offset row col := by
          intro heq
          unfold Matrix.offset at heq
          rw [hinv.shape] at heq
          obtain ⟨hi, hj⟩ := offset_inj hij.2.2.1 hij.2.2.2 hin.2.2.1 hin.2.2.2 heq
          exact hnot (Or.inr ⟨hi, by omega⟩)
        simp only [heq, if_false]
        exact hinv.todo i j hij (by omega)
    obtain ⟨σ', hrun, hfin⟩ := ih f (col + 1) (σ.set m m') (by omega) (by omega) (by omega) hinv'
    refine ⟨σ', ?_, hfin⟩
    simp only [Matrix.assignCols, hne, if_false, hval, hv, hput]
    exact hrun

/-- The outer loop, `n` rows from its end, completes the matrix. -/
theorem Matrix.assignRows_spec [Add T] {σ0 : Store T} {m : Nat} {e : Expr}
    (hwf : Expr.wf σ0 e) (hsz : (σ0 m).size = Expr.size σ0 e)
    (hst : Expr.straight m e false = true) (hc0 : 0 ≤ (σ0 m).matSize_.cols) {fuel0 : Nat}
    (hfuel0 : (σ0 m).matSize_.cols < fuel0) :
    ∀ (n fuel : Nat) (row : Int) (σ : Store T), 0 ≤ row → row + n = (σ0 m).matSize_.rows →
      n < fuel → AssignInv σ0 m e row 0 σ →
      ∃ σ', Matrix.assignRows m e fuel0 fuel row σ = .ok σ' () ∧
        AssignInv σ0 m e (σ0 m).matSize_.rows 0 σ' := by
  intro n
  induction n with
  | zero =>
    intro fuel row σ _ hrow hfuel hinv
    obtain ⟨f, rfl⟩ : ∃ f, fuel = f + 1 := ⟨fuel - 1, by omega⟩
    have hc : row = (σ0 m).matSize_.rows := by omega
    subst hc
    refine ⟨σ, ?_, hinv⟩
    simp [Matrix.assignRows, hinv.shape]
  | succ n ih =>
    intro fuel row σ hr0 hrow hfuel hinv
    obtain ⟨f, rfl⟩ : ∃ f, fuel = f + 1 := ⟨fuel - 1, by omega⟩
    have hne : ¬ row = (σ m).matSize_.rows := by rw [hinv.shape]; omega
    obtain ⟨σ1, hrun1, hinv1⟩ :=
      Matrix.assignCols_spec hwf hsz hst hr0 (by omega) (σ0 m).matSize_.cols.toNat fuel0 0 σ
        (le_refl 0) (by omega) (by omega) hinv
    obtain ⟨σ', hrun, hfin⟩ := ih f (row + 1) σ1 (by omega) (by omega) (by omega) hinv1.next_row
    refine ⟨σ', ?_, hfin⟩
    simp only [Matrix.assignRows, hne, if_false, hrun1, Outcome.andThen]
    exact hrun

/-- What `assign_from_mat_expression` does.  The target `m` has the shape of the expression,
a non-negative one, and occurs in the expression only under an even number of transpositions.
With fuel beyond both dimensions the call returns; it changes no other matrix, keeps the shape
of `m`, and leaves in every cell of `m` the value the expression had at the start. -/
theorem Matrix.assign_from_mat_expression_spec [Add T] (σ : Store T) (m : Nat) (e : Expr)
    (fuel : Nat) (hwf : Expr.wf σ e) (hrep : (σ m).repOk) (hsz : (σ m).size = Expr.size σ e)
    (hst : Expr.straight m e false = true)
    (hr0 : 0 ≤ (σ m).matSize_.rows) (hc0 : 0 ≤ (σ m).matSize_.cols)
    (hfr : (σ m).matSize_.rows < fuel) (hfc : (σ m).matSize_.cols < fuel) :
    ∃ σ', Matrix.assign_from_mat_expression σ m e fuel = .ok σ' () ∧
      (∀ k, k ≠ m → σ' k = σ k) ∧ (σ' m).matSize_ = (σ m).matSize_ ∧ (σ' m).repOk ∧
      ∀ i j, (σ m).matSize_.inRange i j → (σ' m).call i j = Expr.call σ e i j := by
  have hinv : AssignInv σ m e 0 0 σ :=
    ⟨fun _ _ => rfl, rfl, hrep, fun i j hin h => by
      obtain ⟨_, _, _, _⟩ := hin
      omega, fun _ _ _ _ => rfl⟩
  obtain ⟨σ', hrun, hfin⟩ :=
    Matrix.assignRows_spec hwf hsz hst hc0 hfc (σ m).matSize_.rows.toNat fuel 0 σ (le_refl 0)
      (by omega) (by omega) hinv
  refine ⟨σ', hrun, hfin.other, hfin.shape, hfin.rep, ?_⟩
  intro i j hin
  exact hfin.done i j hin (Or.inl hin.2.1)

end AssignLemmas

/-! ## Construction, exceptions -/

section CtorLemmas

variable {T : Type}

/-- The size constructor on a non-negative shape whose element count fits in an `int`
returns, and the object it makes has that shape, satisfies the class invariant, and is empty
exactly when a dimension is zero. -/
theorem Matrix.ctorSize_spec (σ : Store T) (n : Nat) (s : MatrixSize) (garbage : Nat → T)
    (hr0 : 0 ≤ s.rows) (hc0 : 0 ≤ s.cols) (hfit : s.rows * s.cols ≤ INT_MAX) :
    ∃ mat : Matrix T, Matrix.ctorSize σ n s garbage = .ok (σ.set n mat) () ∧
      mat.matSize_ = s ∧ mat.repOk ∧ (mat.isEmpty = true ↔ s.rows = 0 ∨ s.cols = 0) := by
  by_cases hz : s.rows = 0 ∨ s.cols = 0
  · refine ⟨⟨s, none⟩, by simp [Matrix.ctorSize, hz], rfl, ?_, ?_⟩
    · simpa [Matrix.repOk] using hz
    · simp [Matrix.isEmpty, hz]
  · have hprod := mul_nonneg hr0 hc0
    have hw : wrapInt (s.rows * s.cols) = s.rows * s.cols :=
      wrapInt_of_fits (by omega) hfit
    have hpos : ¬ s.rows * s.cols < 0 := by omega
    refine ⟨⟨s, some ((List.range (s.rows * s.cols).toNat).map garbage)⟩,
      by simp [Matrix.ctorSize, hz, hw, hpos], rfl, ?_, ?_⟩
    · simp only [Matrix.repOk, List.length_map, List.length_range]
      refine ⟨by tauto, by tauto, by omega, hfit⟩
    · simp [Matrix.isEmpty, hz]

/-- The size constructor at 46341x46341: the `int` product `46341 * 46341` wraps to a
negative count and `new T[n]` throws `std::bad_array_new_length`; the store is unchanged. -/
theorem Matrix.ctorSize_wraps_negative (σ : Store T) (n : Nat) (garbage : Nat → T) :
    Matrix.ctorSize σ n ⟨46341, 46341⟩ garbage = .raised .bad_array_new_length σ := by
  have hw : wrapInt (46341 * 46341) = -2147479015 := by decide
  have hz : ¬ ((46341 : Int) = 0 ∨ (46341 : Int) = 0) := by decide
  have hneg : (-2147479015 : Int) < 0 := by decide
  simp only [Matrix.ctorSize, hz, hw, hneg, if_false, if_true]

/-- The inner loop of `assign_from_mat_expression` throws nothing. -/
theorem Matrix.assignCols_not_raised [Add T] (m : Nat) (e : Expr) (row : Int) :
    ∀ (fuel : Nat) (col : Int) (σ : Store T) (x : Exn) (σ' : Store T),
      Matrix.assignCols m e row fuel col σ ≠ .raised x σ' := by
  intro fuel
  induction fuel with
  | zero =>
    intro col σ x σ' h
    simp [Matrix.assignCols] at h
  | succ f ih =>
    intro col σ x σ' h
    unfold Matrix.assignCols at h
    split at h
    · simp at h
    · split at h
      · simp at h
      · split at h
        · simp at h
        · exact ih _ _ _ _ h

/-- The outer loop of `assign_from_mat_expression` throws nothing. -/
theorem Matrix.assignRows_not_raised [Add T] (m : Nat) (e : Expr) (fuel0 : Nat) :
    ∀ (fuel : Nat) (row : Int) (σ : Store T) (x : Exn) (σ' : Store T),
      Matrix.assignRows m e fuel0 fuel row σ ≠ .raised x σ' := by
  intro fuel
  induction fuel with
  | zero =>
    intro row σ x σ' h
    simp [Matrix.assignRows] at h
  | succ f ih =>
    intro row σ x σ' h
    unfold Matrix.assignRows at h
    split at h
    · simp at h
    · cases hin : Matrix.assignCols m e row fuel0 0 σ with
      | ok σ1 a =>
        rw [hin] at h
        exact ih _ _ _ _ h
      | raised y σ1 => exact Matrix.assignCols_not_raised m e row _ _ _ _ _ hin
      | undefined =>
        rw [hin] at h
        simp [Outcome.andThen] at h
      | outOfFuel =>
        rw [hin] at h
        simp [Outcome.andThen] at h

end CtorLemmas

/-! ## `fill` -/

section FillLemmas

variable {T : Type}

theorem take_succ_set {a : List T} {k : Nat} (hk : k < a.length) (v : T) :
    (a.set k v).take (k + 1) = a.take k ++ [v] := by
  rw [List.take_succ, List.set_take, List.getElem?_set_self hk]
  rw [List.set_eq_of_length_le (by simp)]
  rfl

/-- The loop of `fill`, `n` elements from the end of the buffer `a`, overwrites the rest of
the buffer with `v`. -/
theorem Matrix.fillLoop_spec (m : Nat) (v : T) :
    ∀ (n fuel k : Nat) (σ : Store T) (a : List T), (σ m).arr_ = some a →
      (a.length : Int) = (σ m).matSize_.rows * (σ m).matSize_.cols → k + n = a.length →
      n < fuel →
      ∃ σ', Matrix.fillLoop m v fuel (k : Int) σ = .ok σ' () ∧ (∀ j, j ≠ m → σ' j = σ j) ∧
        (σ' m).matSize_ = (σ m).matSize_ ∧
        (σ' m).arr_ = some (a.take k ++ List.replicate n v) := by
  intro n
  induction n with
  | zero =>
    intro fuel k σ a harr hlen hk hfuel
    obtain ⟨f, rfl⟩ : ∃ f, fuel = f + 1 := ⟨fuel - 1, by omega⟩
    have hka : k = a.length := by omega
    refine ⟨σ, ?_, fun _ _ => rfl, rfl, ?_⟩
    · have : (k : Int) = (σ m).matSize_.rows * (σ m).matSize_.cols := by rw [← hlen, hka]
      simp [Matrix.fillLoop, this]
    · simp [harr, hka]
  | succ n ih =>
    intro fuel k σ a harr hlen hk hfuel
    obtain ⟨f, rfl⟩ : ∃ f, fuel = f + 1 := ⟨fuel - 1, by omega⟩
    have hlt : k < a.length := by omega
    have hne : ¬ (k : Int) = (σ m).matSize_.rows * (σ m).matSize_.cols := by
      rw [← hlen]; omega
    have hstore : (σ m).store k v = some { σ m with arr_ := some (a.set k v) } := by
      simp [Matrix.store, harr, hlt]
    obtain ⟨σ', hrun, hother, hshape, hres⟩ :=
      ih f (k + 1) (σ.set m { σ m with arr_ := some (a.set k v) }) (a.set k v)
        (by rw [Store.set_same]) (by rw [Store.set_same]; simpa using hlen)
        (by simp only [List.length_set]; omega) (by omega)
    refine ⟨σ', ?_, ?_, ?_, ?_⟩
    · simp only [Matrix.fillLoop, hne, if_false, Int.toNat_ofNat, hstore]
      exact_mod_cast hrun
    · intro j hj
      rw [hother j hj, Store.set_other σ _ hj]
    · rw [hshape, Store.set_same]
    · rw [hres, take_succ_set hlt v, List.append_assoc]
      rfl

/-- Constructing the object `n` with a non-negative size `s` and filling it with `v` returns
once the fuel exceeds the number of elements, and makes `n` the matrix of size `s` filled
with `v`. -/
theorem Matrix.ctorSize_fill (σ : Store T) (n : Nat) (s : MatrixSize) (garbage : Nat → T)
    (v : T) (fuel : Nat) (hr0 : 0 ≤ s.rows) (hc0 : 0 ≤ s.cols)
    (hfit : s.rows * s.cols ≤ INT_MAX) (hfuel : s.rows * s.cols < fuel) :
    (Matrix.ctorSize σ n s garbage).andThen (fun σ1 _ => Matrix.fill σ1 n v fuel) =
      .ok (σ.set n (Matrix.filled s v)) () := by
  have hprod := mul_nonneg hr0 hc0
  obtain ⟨f, rfl⟩ : ∃ f, fuel = f + 1 := ⟨fuel - 1, by omega⟩
  by_cases hz : s.rows = 0 ∨ s.cols = 0
  · have hp : s.rows * s.cols = 0 := by
      rcases hz with h | h <;> simp [h]
    simp [Matrix.ctorSize, hz, Outcome.andThen, Matrix.fill, Matrix.fillLoop, Store.set_same,
      hp, Matrix.filled]
  · have hpos : ¬ s.rows * s.cols < 0 := by omega
    have hw : wrapInt (s.rows * s.cols) = s.rows * s.cols :=
      wrapInt_of_fits (by omega) hfit
    obtain ⟨σ', hrun, hother, hshape, hres⟩ :=
      Matrix.fillLoop_spec n v (s.rows * s.cols).toNat (f + 1) 0
        (σ.set n ⟨s, some ((List.range (s.rows * s.cols).toNat).map garbage)⟩)
        ((List.range (s.rows * s.cols).toNat).map garbage)
        (by rw [Store.set_same]) (by rw [Store.set_same]; simp; omega) (by simp) (by omega)
    simp only [Matrix.ctorSize, hz, hw, hpos, if_false, Outcome.andThen, Matrix.fill]
    rw [show ((0 : Nat) : Int) = 0 from rfl] at hrun
    rw [hrun]
    congr 1
    funext i
    by_cases hi : i = n
    · subst hi
      rw [Store.set_same]
      cases hσ : σ' i with
      | mk sz arr =>
        rw [hσ] at hshape hres
        simp only at hshape hres
        simp [Matrix.filled, hz, hshape, hres, Store.set_same]
    · rw [hother i hi, Store.set_other _ _ hi, Store.set_other _ _ hi]

theorem Matrix.filled_repOk (s : MatrixSize) (v : T) (hr0 : 0 ≤ s.rows) (hc0 : 0 ≤ s.cols)
    (hfit : s.rows * s.cols ≤ INT_MAX) : (Matrix.filled s v).repOk := by
  have hprod := mul_nonneg hr0 hc0
  unfold Matrix.filled Matrix.repOk
  by_cases hz : s.rows = 0 ∨ s.cols = 0
  · simp only [hz, if_true]
  · simp only [hz, if_false, List.length_replicate]
    exact ⟨by tauto, by tauto, by omega, hfit⟩

/-- Inside its shape every element of a filled matrix is the fill value. -/
theorem Matrix.filled_call (s : MatrixSize) (v : T) {i j : Int} (h : s.inRange i j) :
    (Matrix.filled s v).call i j = some v := by
  obtain ⟨hi0, hi, hj0, hj⟩ := h
  have hb := offset_bounds hi0 hi hj0 hj
  have hz : ¬ (s.rows = 0 ∨ s.cols = 0) := by omega
  have hlt : (s.cols * i + j).toNat < (s.rows * s.cols).toNat := by omega
  simp [Matrix.filled, Matrix.call, Matrix.offset, hz, hb.1, hlt]

/-- The set-up of the test case `operator+` on a non-negative shape whose element count fits
in an `int` returns once the fuel exceeds the element count, and leaves `A` and `B` as the
matrices of that shape filled with `a` and with `b`. -/
theorem filledPair_spec (σ : Store T) (A B : Nat) (s : MatrixSize) (a b : T)
    (garbageA garbageB : Nat → T) (fuel : Nat) (hr0 : 0 ≤ s.rows) (hc0 : 0 ≤ s.cols)
    (hfit : s.rows * s.cols ≤ INT_MAX) (hfuel : s.rows * s.cols < fuel) :
    filledPair σ A B s a b garbageA garbageB fuel =
      .ok ((σ.set A (Matrix.filled s a)).set B (Matrix.filled s b)) () := by
  have hA := Matrix.ctorSize_fill σ A s garbageA a fuel hr0 hc0 hfit hfuel
  have hB :=
    Matrix.ctorSize_fill (σ.set A (Matrix.filled s a)) B s garbageB b fuel hr0 hc0 hfit hfuel
  unfold filledPair
  cases hc : Matrix.ctorSize σ A s garbageA with
  | ok σ1 u =>
    rw [hc] at hA
    simp only [Outcome.andThen] at hA ⊢
    rw [hA]
    exact hB
  | raised x σ1 => rw [hc] at hA; simp [Outcome.andThen] at hA
  | undefined => rw [hc] at hA; simp [Outcome.andThen] at hA
  | outOfFuel => rw [hc] at hA; simp [Outcome.andThen] at hA

end FillLemmas

/-! ## Transposition-free expressions, leaf accesses -/

section AccessLemmas

variable {T : Type}

/-- The element count of a matrix in its class invariant is a non-negative `int`. -/
theorem Matrix.repOk_count {m : Matrix T} (hm : m.repOk) :
    0 ≤ m.matSize_.rows * m.matSize_.cols ∧ m.matSize_.rows * m.matSize_.cols ≤ INT_MAX := by
  unfold Matrix.repOk at hm
  cases ha : m.arr_ with
  | none =>
    rw [ha] at hm
    simp only at hm
    have hp : m.matSize_.rows * m.matSize_.cols = 0 := by
      rcases hm with h | h <;> simp [h]
    rw [hp]
    exact ⟨le_refl 0, by decide⟩
  | some a =>
    rw [ha] at hm
    simp only at hm
    exact ⟨by rw [← hm.2.2.1]; exact Int.ofNat_nonneg _, hm.2.2.2⟩

/-- Inside the shape of a matrix in its class invariant neither the element count nor the
product `cols * i` nor the offset `cols * i + j` overflows `int`. -/
theorem Matrix.offset_no_overflow {m : Matrix T} (hm : m.repOk) {i j : Int}
    (h : m.matSize_.inRange i j) :
    wrapInt (m.matSize_.rows * m.matSize_.cols) = m.matSize_.rows * m.matSize_.cols ∧
      wrapInt (m.matSize_.cols * i) = m.matSize_.cols * i ∧
      wrapInt (m.offset i j) = m.offset i j := by
  obtain ⟨hi0, hi, hj0, hj⟩ := h
  have hb := offset_bounds hi0 hi hj0 hj
  have hc := Matrix.repOk_count hm
  have hci : 0 ≤ m.matSize_.cols * i := mul_nonneg (by omega) hi0
  unfold Matrix.offset
  unfold INT_MAX at hc
  refine ⟨wrapInt_of_fits (by omega) hc.2, wrapInt_of_fits (by omega) ?_,
    wrapInt_of_fits (by omega) ?_⟩
  · unfold INT_MAX; omega
  · unfold INT_MAX; omega

/-- The element count of the shape of a well-formed expression is a non-negative `int`: it
is the element count of one of its leaves. -/
theorem Expr.size_count_of_wf {σ : Store T} {e : Expr} (hwf : Expr.wf σ e) :
    0 ≤ (Expr.size σ e).rows * (Expr.size σ e).cols ∧
      (Expr.size σ e).rows * (Expr.size σ e).cols ≤ INT_MAX := by
  induction e with
  | mat id => exact Matrix.repOk_count hwf
  | transpose exper ih =>
    have h := ih hwf
    simp only [Expr.size]
    rw [mul_comm]
    exact h
  | add exper1 exper2 ih1 _ => exact ih1 hwf.1

/-- In a store that satisfies the invariant the element count of the shape of any expression
is a non-negative `int`. -/
theorem Expr.size_count_of_inv {σ : Store T} (hinv : Store.inv σ) (e : Expr) :
    0 ≤ (Expr.size σ e).rows * (Expr.size σ e).cols ∧
      (Expr.size σ e).rows * (Expr.size σ e).cols ≤ INT_MAX := by
  induction e with
  | mat id => exact Matrix.repOk_count (hinv id)
  | transpose exper ih =>
    simp only [Expr.size]
    rw [mul_comm]
    exact ih
  | add exper1 exper2 ih1 _ => exact ih1

/-- In an expression without `MatrixTranspose` nodes every operand occurs under zero
transpositions. -/
theorem Expr.straight_of_transposeFree (m : Nat) {e : Expr}
    (h : Expr.transposeFree e = true) : Expr.straight m e false = true := by
  induction e with
  | mat id => simp [Expr.straight]
  | transpose exper _ => simp [Expr.transposeFree] at h
  | add exper1 exper2 ih1 ih2 =>
    simp only [Expr.transposeFree, Bool.and_eq_true] at h
    simp [Expr.straight, ih1 h.1, ih2 h.2]

/-- The evaluation of an expression has a value exactly when each of its leaf accesses
has one. -/
theorem Expr.call_eq_none_iff [Add T] (σ : Store T) (e : Expr) :
    ∀ r c : Int, Expr.call σ e r c = none ↔
      ∃ acc ∈ Expr.accesses e r c, (σ acc.1).call acc.2.1 acc.2.2 = none := by
  induction e with
  | mat id =>
    intro r c
    simp [Expr.call, Expr.accesses]
  | transpose exper ih =>
    intro r c
    simpa [Expr.call, Expr.accesses] using ih c r
  | add exper1 exper2 ih1 ih2 =>
    intro r c
    have h1 := ih1 r c
    have h2 := ih2 r c
    simp only [Expr.accesses, List.mem_append, Expr.call]
    constructor
    · intro h
      cases hc1 : Expr.call σ exper1 r c with
      | none =>
        obtain ⟨acc, hmem, hnone⟩ := h1.mp hc1
        exact ⟨acc, Or.inl hmem, hnone⟩
      | some a =>
        cases hc2 : Expr.call σ exper2 r c with
        | none =>
          obtain ⟨acc, hmem, hnone⟩ := h2.mp hc2
          exact ⟨acc, Or.inr hmem, hnone⟩
        | some b => simp [hc1, hc2] at h
    · rintro ⟨acc, hmem | hmem, hnone⟩
      · rw [h1.mpr ⟨acc, hmem, hnone⟩]
      · rw [h2.mpr ⟨acc, hmem, hnone⟩]
        cases Expr.call σ exper1 r c <;> rfl

/-- Inside the shape of a well-formed expression every leaf access lies inside the shape of
its leaf. -/
theorem Expr.accesses_inRange {σ : Store T} {e : Expr} (hwf : Expr.wf σ e) :
    ∀ {r c : Int}, (Expr.size σ e).inRange r c →
      ∀ acc ∈ Expr.accesses e r c, (σ acc.1).matSize_.inRange acc.2.1 acc.2.2 := by
  induction e with
  | mat id =>
    intro r c h acc hacc
    simp only [Expr.accesses, List.mem_singleton] at hacc
    subst hacc
    exact h
  | transpose exper ih =>
    intro r c h acc hacc
    exact ih hwf (MatrixSize.inRange_swap.mp h) acc hacc
  | add exper1 exper2 ih1 ih2 =>
    intro r c h acc hacc
    obtain ⟨h1, h2, heq⟩ := hwf
    simp only [Expr.accesses, List.mem_append] at hacc
    rcases hacc with hacc | hacc
    · exact ih1 h1 h acc hacc
    · exact ih2 h2 (by rw [← heq]; exact h) acc hacc

/-- Every leaf access of a well-formed expression is to a matrix in its class invariant. -/
theorem Expr.accesses_repOk {σ : Store T} {e : Expr} (hwf : Expr.wf σ e) :
    ∀ (r c : Int), ∀ acc ∈ Expr.accesses e r c, (σ acc.1).repOk := by
  induction e with
  | mat id =>
    intro r c acc hacc
    simp only [Expr.accesses, List.mem_singleton] at hacc
    subst hacc
    exact hwf
  | transpose exper ih =>
    intro r c acc hacc
    exact ih hwf c r acc hacc
  | add exper1 exper2 ih1 ih2 =>
    intro r c acc hacc
    simp only [Expr.accesses, List.mem_append] at hacc
    rcases hacc with hacc | hacc
    · exact ih1 hwf.1 r c acc hacc
    · exact ih2 hwf.2.1 r c acc hacc

/-- Inside its shape an access to a matrix in its class invariant reads the buffer at an
offset inside the buffer. -/
theorem Matrix.offset_in_buffer {m : Matrix T} (hm : m.repOk) {i j : Int}
    (h : m.matSize_.inRange i j) :
    0 ≤ m.offset i j ∧ m.offset i j < m.matSize_.rows * m.matSize_.cols ∧
      ∃ a, m.arr_ = some a ∧ m.offset i j < a.length := by
  obtain ⟨hi0, hi, hj0, hj⟩ := h
  have hb := offset_bounds hi0 hi hj0 hj
  unfold Matrix.repOk at hm
  unfold Matrix.offset
  cases ha : m.arr_ with
  | none =>
    rw [ha] at hm
    simp only at hm
    omega
  | some a =>
    rw [ha] at hm
    simp only at hm
    exact ⟨hb.1, hb.2, a, rfl, by rw [hm.2.2.1]; exact hb.2⟩

end AccessLemmas

/-! ## Frames of the loops -/

section FrameLemmas

variable {T : Type}

theorem Matrix.repOk_of_same {m m' : Matrix T} (hshape : m'.matSize_ = m.matSize_)
    (hlen : m'.arr_.map List.length = m.arr_.map List.length) (h : m.repOk) : m'.repOk := by
  unfold Matrix.repOk at h ⊢
  rw [hshape]
  cases ha : m.arr_ with
  | none =>
    rw [ha] at h hlen
    cases ha' : m'.arr_ with
    | none => simpa using h
    | some a' => rw [ha'] at hlen; simp at hlen
  | some a =>
    rw [ha] at h hlen
    cases ha' : m'.arr_ with
    | none => rw [ha'] at hlen; simp at hlen
    | some a' =>
      rw [ha'] at hlen
      simp only [Option.map_some', Option.some.injEq] at hlen
      simp only at h ⊢
      rw [hlen]
      exact h

theorem Store.sameBut_refl (m : Nat) (σ : Store T) : Store.sameBut m σ σ :=
  ⟨fun _ _ => rfl, rfl, rfl⟩

theorem Store.sameBut_trans {m : Nat} {σ1 σ2 σ3 : Store T} (h12 : Store.sameBut m σ1 σ2)
    (h23 : Store.sameBut m σ2 σ3) : Store.sameBut m σ1 σ3 :=
  ⟨fun k hk => by rw [h23.1 k hk, h12.1 k hk], by rw [h23.2.1, h12.2.1],
    by rw [h23.2.2, h12.2.2]⟩

/-- A store keeps its invariant when only the contents of one buffer change. -/
theorem Store.inv_of_sameBut {m : Nat} {σ σ' : Store T} (h : Store.sameBut m σ σ')
    (hinv : Store.inv σ) : Store.inv σ' := by
  intro k
  by_cases hk : k = m
  · subst hk
    exact Matrix.repOk_of_same h.2.1 h.2.2 (hinv k)
  · rw [h.1 k hk]
    exact hinv k

theorem Matrix.put_sameBut {σ : Store T} {m : Nat} {i j : Int} {v : T} {m' : Matrix T}
    (h : (σ m).put i j v = some m') : Store.sameBut m σ (σ.set m m') := by
  refine ⟨fun k hk => Store.set_other σ m' hk, ?_, ?_⟩
  · rw [Store.set_same]
    unfold Matrix.put at h
    cases ha : (σ m).arr_ with
    | none => rw [ha] at h; simp at h
    | some a =>
      rw [ha] at h
      simp only at h
      split at h
      · simp only [Option.some.injEq] at h
        rw [← h]
      · simp at h
  · rw [Store.set_same]
    unfold Matrix.put at h
    cases ha : (σ m).arr_ with
    | none => rw [ha] at h; simp at h
    | some a =>
      rw [ha] at h
      simp only at h
      split at h
      · simp only [Option.some.injEq] at h
        rw [← h]
        simp
      · simp at h

theorem Matrix.store_sameBut {σ : Store T} {m k : Nat} {v : T} {m' : Matrix T}
    (h : (σ m).store k v = some m') : Store.sameBut m σ (σ.set m m') := by
  refine ⟨fun k hk => Store.set_other σ m' hk, ?_, ?_⟩
  · rw [Store.set_same]
    unfold Matrix.store at h
    cases ha : (σ m).arr_ with
    | none => rw [ha] at h; simp at h
    | some a =>
      rw [ha] at h
      simp only at h
      split at h
      · simp only [Option.some.injEq] at h
        rw [← h]
      · simp at h
  · rw [Store.set_same]
    unfold Matrix.store at h
    cases ha : (σ m).arr_ with
    | none => rw [ha] at h; simp at h
    | some a =>
      rw [ha] at h
      simp only at h
      split at h
      · simp only [Option.some.injEq] at h
        rw [← h]
        simp
      · simp at h

/-- The inner loop of `assign_from_mat_expression` changes at most the contents of the buffer
of its target. -/
theorem Matrix.assignCols_sameBut [Add T] (m : Nat) (e : Expr) (row : Int) :
    ∀ (fuel : Nat) (col : Int) (σ σ' : Store T) (u : Unit),
      Matrix.assignCols m e row fuel col σ = .ok σ' u → Store.sameBut m σ σ' := by
  intro fuel
  induction fuel with
  | zero =>
    intro col σ σ' u h
    simp [Matrix.assignCols] at h
  | succ f ih =>
    intro col σ σ' u h
    unfold Matrix.assignCols at h
    split at h
    · simp only [Outcome.ok.injEq] at h
      rw [← h.1]
      exact Store.sameBut_refl m σ
    · split at h
      · simp at h
      · split at h
        · simp at h
        · rename_i m' hput
          exact Store.sameBut_trans (Matrix.put_sameBut hput) (ih _ _ _ _ h)

/-- The outer loop of `assign_from_mat_expression` changes at most the contents of the buffer
of its target. -/
theorem Matrix.assignRows_sameBut [Add T] (m : Nat) (e : Expr) (fuel0 : Nat) :
    ∀ (fuel : Nat) (row : Int) (σ σ' : Store T) (u : Unit),
      Matrix.assignRows m e fuel0 fuel row σ = .ok σ' u → Store.sameBut m σ σ' := by
  intro fuel
  induction fuel with
  | zero =>
    intro row σ σ' u h
    simp [Matrix.assignRows] at h
  | succ f ih =>
    intro row σ σ' u h
    unfold Matrix.assignRows at h
    split at h
    · simp only [Outcome.ok.injEq] at h
      rw [← h.1]
      exact Store.sameBut_refl m σ
    · cases hin : Matrix.assignCols m e row fuel0 0 σ with
      | ok σ1 a =>
        rw [hin] at h
        exact Store.sameBut_trans (Matrix.assignCols_sameBut m e row _ _ _ _ _ hin)
          (ih _ _ _ _ h)
      | raised y σ1 => rw [hin] at h; simp [Outcome.andThen] at h
      | undefined => rw [hin] at h; simp [Outcome.andThen] at h
      | outOfFuel => rw [hin] at h; simp [Outcome.andThen] at h

/-- The loop of `fill` changes at most the contents of the buffer of its target. -/
theorem Matrix.fillLoop_sameBut (m : Nat) (v : T) :
    ∀ (fuel : Nat) (k : Int) (σ σ' : Store T) (u : Unit),
      Matrix.fillLoop m v fuel k σ = .ok σ' u → Store.sameBut m σ σ' := by
  intro fuel
  induction fuel with
  | zero =>
    intro k σ σ' u h
    simp [Matrix.fillLoop] at h
  | succ f ih =>
    intro k σ σ' u h
    unfold Matrix.fillLoop at h
    split at h
    · simp only [Outcome.ok.injEq] at h
      rw [← h.1]
      exact Store.sameBut_refl m σ
    · split at h
      · simp at h
      · rename_i m' hst
        exact Store.sameBut_trans (Matrix.store_sameBut hst) (ih _ _ _ _ h)

/-- The loop of `fill` throws nothing. -/
theorem Matrix.fillLoop_not_raised (m : Nat) (v : T) :
    ∀ (fuel : Nat) (k : Int) (σ : Store T) (x : Exn) (σ' : Store T),
      Matrix.fillLoop m v fuel k σ ≠ .raised x σ' := by
  intro fuel
  induction fuel with
  | zero =>
    intro k σ x σ' h
    simp [Matrix.fillLoop] at h
  | succ f ih =>
    intro k σ x σ' h
    unfold Matrix.fillLoop at h
    split at h
    · simp at h
    · split at h
      · simp at h
      · exact ih _ _ _ _ h

end FrameLemmas

/-! ## `operator==` -/

section EqualsLemmas

variable {T : Type}

/-- One run of the inner loop of `operator==`, `n` columns from its end, returns; its value is
`true` exactly when the two matrices agree on the rest of the row. -/
theorem Matrix.eqCols_spec [DecidableEq T] {σ : Store T} {left right : Nat}
    (hl : (σ left).repOk) (hr : (σ right).repOk) (hsz : (σ left).size = (σ right).size)
    {i : Int} (hi0 : 0 ≤ i) (hi : i < (σ left).size.rows) :
    ∀ (n fuel : Nat) (j : Int), 0 ≤ j → j + n = (σ left).size.cols → n < fuel →
      ∃ b, Matrix.eqCols σ left right (σ left).size i fuel j = .ok σ b ∧
        (b = true ↔ ∀ j', j ≤ j' → j' < (σ left).size.cols →
          (σ left).call i j' = (σ right).call i j') := by
  intro n
  induction n with
  | zero =>
    intro fuel j _ hj hfuel
    obtain ⟨f, rfl⟩ : ∃ f, fuel = f + 1 := ⟨fuel - 1, by omega⟩
    have hjc : j = (σ left).size.cols := by omega
    refine ⟨true, by simp [Matrix.eqCols, hjc], ?_⟩
    simp only [true_iff]
    intro j' h1 h2
    omega
  | succ n ih =>
    intro fuel j hj0 hj hfuel
    obtain ⟨f, rfl⟩ : ∃ f, fuel = f + 1 := ⟨fuel - 1, by omega⟩
    have hne : ¬ j = (σ left).size.cols := by omega
    have hinl : (σ left).matSize_.inRange i j := ⟨hi0, hi, hj0, by
      have : (σ left).matSize_.cols = (σ left).size.cols := rfl
      omega⟩
    have hinr : (σ right).matSize_.inRange i j := by
      have : (σ right).matSize_ = (σ left).matSize_ := hsz.symm
      rw [this]; exact hinl
    obtain ⟨a, ha⟩ := Matrix.cell_isSome hl hinl
    obtain ⟨b, hb⟩ := Matrix.cell_isSome hr hinr
    by_cases hab : a = b
    · obtain ⟨res, hrun, hres⟩ := ih f (j + 1) (by omega) (by omega) (by omega)
      refine ⟨res, ?_, ?_⟩
      · simp only [Matrix.eqCols, hne, if_false, ha, hb, hab, ne_eq, not_true_eq_false]
        exact hrun
      · rw [hres]
        constructor
        · intro h j' h1 h2
          by_cases hjj : j' = j
          · rw [hjj, ha, hb, hab]
          · exact h j' (by omega) h2
        · intro h j' h1 h2
          exact h j' (by omega) h2
    · refine ⟨false, ?_, ?_⟩
      · simp [Matrix.eqCols, hne, ha, hb, hab]
      · simp only [Bool.false_eq_true, false_iff, not_forall]
        refine ⟨j, le_refl j, by omega, ?_⟩
        rw [ha, hb]
        simpa using hab

/-- The outer loop of `operator==`, `n` rows from its end, returns; its value is `true`
exactly when the two matrices agree on the rest of the rows. -/
theorem Matrix.eqRows_spec [DecidableEq T] {σ : Store T} {left right : Nat}
    (hl : (σ left).repOk) (hr : (σ right).repOk) (hsz : (σ left).size = (σ right).size)
    (hc0 : 0 ≤ (σ left).size.cols) {fuel0 : Nat} (hfuel0 : (σ left).size.cols < fuel0) :
    ∀ (n fuel : Nat) (i : Int), 0 ≤ i → i + n = (σ left).size.rows → n < fuel →
      ∃ b, Matrix.eqRows σ left right (σ left).size fuel0 fuel i = .ok σ b ∧
        (b = true ↔ ∀ i', i ≤ i' → i' < (σ left).size.rows →
          ∀ j', 0 ≤ j' → j' < (σ left).size.cols →
            (σ left).call i' j' = (σ right).call i' j') := by
  intro n
  induction n with
  | zero =>
    intro fuel i _ hi hfuel
    obtain ⟨f, rfl⟩ : ∃ f, fuel = f + 1 := ⟨fuel - 1, by omega⟩
    have hic : i = (σ left).size.rows := by omega
    refine ⟨true, by simp [Matrix.eqRows, hic], ?_⟩
    simp only [true_iff]
    intro i' h1 h2
    omega
  | succ n ih =>
    intro fuel i hi0 hi hfuel
    obtain ⟨f, rfl⟩ : ∃ f, fuel = f + 1 := ⟨fuel - 1, by omega⟩
    have hne : ¬ i = (σ left).size.rows := by omega
    obtain ⟨b1, hrun1, hres1⟩ :=
      Matrix.eqCols_spec hl hr hsz hi0 (by omega) (σ left).size.cols.toNat fuel0 0 (le_refl 0)
        (by omega) (by omega)
    cases b1 with
    | true =>
      obtain ⟨res, hrun, hres⟩ := ih f (i + 1) (by omega) (by omega) (by omega)
      refine ⟨res, ?_, ?_⟩
      · simp only [Matrix.eqRows, hne, if_false, hrun1]
        exact hrun
      · rw [hres]
        have hrow := hres1.mp rfl
        constructor
        · intro h i' h1 h2 j' h3 h4
          by_cases hii : i' = i
          · rw [hii]; exact hrow j' h3 h4
          · exact h i' (by omega) h2 j' h3 h4
        · intro h i' h1 h2 j' h3 h4
          exact h i' (by omega) h2 j' h3 h4
    | false =>
      refine ⟨false, ?_, ?_⟩
      · simp only [Matrix.eqRows, hne, if_false, hrun1]
      · simp only [Bool.false_eq_true, false_iff]
        intro h
        have : (false = true) := hres1.mpr (fun j' h3 h4 => h i (le_refl i) (by omega) j' h3 h4)
        exact Bool.false_ne_true this

/-- What `operator==` does on two matrices in their class invariant, the left one of
non-negative shape: with fuel beyond both dimensions it returns, leaves the store as it is, and
its value is `true` exactly when the sizes are equal and the matrices agree at every index
pair inside the shape. -/
theorem Matrix.equals_spec [DecidableEq T] (σ : Store T) (left right : Nat) (fuel : Nat)
    (hl : (σ left).repOk) (hr : (σ right).repOk)
    (hr0 : 0 ≤ (σ left).size.rows) (hc0 : 0 ≤ (σ left).size.cols)
    (hfr : (σ left).size.rows < fuel) (hfc : (σ left).size.cols < fuel) :
    ∃ b, Matrix.equals σ left right fuel = .ok σ b ∧
      (b = true ↔ (σ left).size = (σ right).size ∧
        ∀ i j, (σ left).size.inRange i j → (σ left).call i j = (σ right).call i j) := by
  by_cases hsz : (σ left).size = (σ right).size
  · obtain ⟨b, hrun, hres⟩ :=
      Matrix.eqRows_spec hl hr hsz hc0 hfc (σ left).size.rows.toNat fuel 0 (le_refl 0)
        (by omega) (by omega)
    refine ⟨b, ?_, ?_⟩
    · simp only [Matrix.equals, hsz, ne_eq, not_true_eq_false, if_false]
      rw [← hsz]
      exact hrun
    · rw [hres]
      constructor
      · intro h
        exact ⟨hsz, fun i j hin => h i hin.1 hin.2.1 j hin.2.2.1 hin.2.2.2⟩
      · intro h i' h1 h2 j' h3 h4
        exact h.2 i' j' ⟨h1, h2, h3, h4⟩
  · refine ⟨false, by simp [Matrix.equals, hsz], ?_⟩
    simp only [Bool.false_eq_true, false_iff, not_and]
    intro h
    exact absurd h hsz

end EqualsLemmas

/-! ## Iteration and `fill` on any matrix -/

section IterLemmas

variable {T : Type}

/-- The range-for from the `k`-th position on, `n` elements from the end of the buffer `a`,
yields the rest of the buffer and leaves the store as it is. -/
theorem Matrix.iterLoop_spec (m : Nat) (σ : Store T) (a : List T) (harr : (σ m).arr_ = some a)
    (hlen : (a.length : Int) = (σ m).matSize_.rows * (σ m).matSize_.cols) :
    ∀ (n fuel k : Nat), k + n = a.length → n < fuel →
      Matrix.iterLoop m fuel (k : Int) σ = .ok σ (a.drop k) := by
  intro n
  induction n with
  | zero =>
    intro fuel k hk hfuel
    obtain ⟨f, rfl⟩ : ∃ f, fuel = f + 1 := ⟨fuel - 1, by omega⟩
    have hka : k = a.length := by omega
    have : (k : Int) = (σ m).matSize_.rows * (σ m).matSize_.cols := by rw [← hlen, hka]
    simp only [Matrix.iterLoop, this, if_true]
    rw [hka, List.drop_length]
  | succ n ih =>
    intro fuel k hk hfuel
    obtain ⟨f, rfl⟩ : ∃ f, fuel = f + 1 := ⟨fuel - 1, by omega⟩
    have hlt : k < a.length := by omega
    have hne : ¬ (k : Int) = (σ m).matSize_.rows * (σ m).matSize_.cols := by
      rw [← hlen]; omega
    have hd : (σ m).deref k = some a[k] := by
      simp [Matrix.deref, harr, List.getElem?_eq_getElem hlt]
    have hrec := ih f (k + 1) (by omega) (by omega)
    have hrec' : Matrix.iterLoop m f ((k : Int) + 1) σ = .ok σ (a.drop (k + 1)) := by
      exact_mod_cast hrec
    simp only [Matrix.iterLoop, hne, if_false, Int.toNat_ofNat, hd, hrec', Outcome.andThen]
    rw [List.drop_eq_getElem_cons hlt]

/-- The elements of the buffer, in storage order; none for a null buffer. -/
theorem Matrix.iterate_spec (σ : Store T) (m : Nat) (fuel : Nat) (hrep : (σ m).repOk)
    (hfuel : (σ m).matSize_.rows * (σ m).matSize_.cols < fuel) :
    Matrix.iterate σ m fuel = .ok σ ((σ m).arr_.getD []) ∧
      (((σ m).arr_.getD []).length : Int) = (σ m).matSize_.rows * (σ m).matSize_.cols := by
  unfold Matrix.repOk at hrep
  cases harr : (σ m).arr_ with
  | none =>
    rw [harr] at hrep
    simp only at hrep
    have hp : (σ m).matSize_.rows * (σ m).matSize_.cols = 0 := by
      rcases hrep with h | h <;> simp [h]
    obtain ⟨f, rfl⟩ : ∃ f, fuel = f + 1 := ⟨fuel - 1, by omega⟩
    simp [Matrix.iterate, Matrix.iterLoop, hp]
  | some a =>
    rw [harr] at hrep
    simp only at hrep
    have h := Matrix.iterLoop_spec m σ a harr hrep.2.2.1 a.length fuel 0 (by simp) (by omega)
    simp only [Option.getD_some]
    refine ⟨?_, hrep.2.2.1⟩
    unfold Matrix.iterate
    rw [show ((0 : Nat) : Int) = 0 from rfl] at h
    rw [h]
    simp

/-- What `fill` does on a matrix in its class invariant: with fuel beyond the number of
elements it returns, changes no other matrix, keeps the shape, and replaces every element of
the buffer by the value. -/
theorem Matrix.fill_spec (σ : Store T) (m : Nat) (v : T) (fuel : Nat) (hrep : (σ m).repOk)
    (hfuel : (σ m).matSize_.rows * (σ m).matSize_.cols < fuel) :
    ∃ σ', Matrix.fill σ m v fuel = .ok σ' () ∧ (∀ k, k ≠ m → σ' k = σ k) ∧
      (σ' m).matSize_ = (σ m).matSize_ ∧
      (σ' m).arr_ = (σ m).arr_.map (fun a => List.replicate a.length v) ∧
      ((σ m).arr_ = none → σ' = σ) := by
  unfold Matrix.repOk at hrep
  cases harr : (σ m).arr_ with
  | none =>
    rw [harr] at hrep
    simp only at hrep
    have hp : (σ m).matSize_.rows * (σ m).matSize_.cols = 0 := by
      rcases hrep with h | h <;> simp [h]
    obtain ⟨f, rfl⟩ : ∃ f, fuel = f + 1 := ⟨fuel - 1, by omega⟩
    refine ⟨σ, by simp [Matrix.fill, Matrix.fillLoop, hp], fun _ _ => rfl, rfl, ?_,
      fun _ => rfl⟩
    simp [harr]
  | some a =>
    rw [harr] at hrep
    simp only at hrep
    obtain ⟨σ', hrun, hother, hshape, hres⟩ :=
      Matrix.fillLoop_spec m v a.length fuel 0 σ a harr hrep.2.2.1 (by simp) (by omega)
    rw [show ((0 : Nat) : Int) = 0 from rfl] at hrun
    refine ⟨σ', hrun, hother, hshape, ?_, fun h => by simp at h⟩
    simpa using hres

/-- After `fill` on a matrix in its class invariant every cell inside the shape holds the
value, and the matrix is still in its class invariant. -/
theorem Matrix.fill_cells (σ : Store T) (m : Nat) (v : T) (fuel : Nat) (hrep : (σ m).repOk)
    (hfuel : (σ m).matSize_.rows * (σ m).matSize_.cols < fuel) :
    ∃ σ', Matrix.fill σ m v fuel = .ok σ' () ∧ (∀ k, k ≠ m → σ' k = σ k) ∧
      (σ' m).matSize_ = (σ m).matSize_ ∧ (σ' m).repOk ∧
      ∀ i j, (σ m).matSize_.inRange i j → (σ' m).call i j = some v := by
  obtain ⟨σ', hrun, hother, hshape, harr, _⟩ := Matrix.fill_spec σ m v fuel hrep hfuel
  have hrep' : (σ' m).repOk :=
    Matrix.repOk_of_same hshape (by rw [harr]; cases (σ m).arr_ <;> simp) hrep
  refine ⟨σ', hrun, hother, hshape, hrep', ?_⟩
  intro i j hin
  obtain ⟨h0, _, a, ha, hlt⟩ := Matrix.offset_in_buffer hrep hin
  rw [ha] at harr
  simp only [Option.map_some'] at harr
  have hoff : (σ' m).offset i j = (σ m).offset i j := by
    unfold Matrix.offset
    rw [hshape]
  have hlt' : ((σ m).offset i j).toNat < a.length := by omega
  simp [Matrix.call, harr, hoff, h0, hlt']

end IterLemmas

/-! ## The class invariant along a run -/

section InvariantLemmas

variable {T : Type}

theorem Store.inv_set {σ : Store T} (hinv : Store.inv σ) (k : Nat) {m : Matrix T}
    (hm : m.repOk) : Store.inv (σ.set k m) := by
  intro i
  by_cases hi : i = k
  · subst hi
    rw [Store.set_same]
    exact hm
  · rw [Store.set_other σ m hi]
    exact hinv i

theorem Store.inv_initial : Store.inv (Store.initial : Store T) := by
  intro k
  simp [Store.initial, Matrix.repOk]

/-- Whenever the size constructor returns after computing its element count without overflow,
the object it has made is in the class invariant; when it throws, the store is unchanged. -/
theorem Matrix.ctorSize_inv (σ : Store T) (n : Nat) (s : MatrixSize) (garbage : Nat → T)
    (hinv : Store.inv σ) (hfit : wrapInt (s.rows * s.cols) = s.rows * s.cols) :
    (∀ σ' u, Matrix.ctorSize σ n s garbage = .ok σ' u → Store.inv σ') ∧
    (∀ x σ', Matrix.ctorSize σ n s garbage = .raised x σ' → σ' = σ) := by
  unfold Matrix.ctorSize
  rw [hfit]
  by_cases hz : s.rows = 0 ∨ s.cols = 0
  · simp only [hz, if_true]
    refine ⟨?_, fun x σ' h => by simp at h⟩
    intro σ' u h
    simp only [Outcome.ok.injEq] at h
    rw [← h.1]
    exact Store.inv_set hinv n (by simpa [Matrix.repOk] using hz)
  · simp only [hz, if_false]
    by_cases hneg : s.rows * s.cols < 0
    · simp only [hneg, if_true]
      refine ⟨fun σ' u h => by simp at h, ?_⟩
      intro x σ' h
      simp only [Outcome.raised.injEq] at h
      exact h.2.symm
    · simp only [hneg, if_false]
      refine ⟨?_, fun x σ' h => by simp at h⟩
      intro σ' u h
      simp only [Outcome.ok.injEq] at h
      rw [← h.1]
      refine Store.inv_set hinv n ?_
      simp only [Matrix.repOk, List.length_map, List.length_range]
      refine ⟨by tauto, by tauto, by omega, (fits_of_wrapInt hfit).2⟩

/-- Whenever `assign_from_mat_expression` leaves a store, the invariant has survived. -/
theorem Matrix.assign_from_mat_expression_inv [Add T] (σ σ' : Store T) (m : Nat) (e : Expr)
    (fuel : Nat) (hinv : Store.inv σ)
    (h : (Matrix.assign_from_mat_expression σ m e fuel).after = some σ') : Store.inv σ' := by
  unfold Matrix.assign_from_mat_expression at h
  cases hrun : Matrix.assignRows m e fuel fuel 0 σ with
  | ok σ1 u =>
    rw [hrun] at h
    simp only [Outcome.after, Option.some.injEq] at h
    subst h
    exact Store.inv_of_sameBut (Matrix.assignRows_sameBut m e fuel fuel 0 σ σ1 u hrun) hinv
  | raised x σ1 => exact absurd hrun (Matrix.assignRows_not_raised m e fuel fuel 0 σ x σ1)
  | undefined => rw [hrun] at h; simp [Outcome.after] at h
  | outOfFuel => rw [hrun] at h; simp [Outcome.after] at h

/-- Whenever a constructor that delegates to the size constructor and then assigns leaves
a store, the invariant has survived. -/
theorem Matrix.ctor_then_assign_inv [Add T] (σ σ' : Store T) (n : Nat) (s : MatrixSize)
    (e : Expr) (garbage : Nat → T) (fuel : Nat) (hinv : Store.inv σ)
    (hfit : wrapInt (s.rows * s.cols) = s.rows * s.cols)
    (h : ((Matrix.ctorSize σ n s garbage).andThen
      fun σ1 _ => Matrix.assign_from_mat_expression σ1 n e fuel).after = some σ') :
    Store.inv σ' := by
  have hc := Matrix.ctorSize_inv σ n s garbage hinv hfit
  cases hrun : Matrix.ctorSize σ n s garbage with
  | ok σ1 u =>
    rw [hrun] at h
    exact Matrix.assign_from_mat_expression_inv σ1 σ' n e fuel (hc.1 σ1 u hrun) h
  | raised x σ1 =>
    rw [hrun] at h
    simp only [Outcome.andThen, Outcome.after, Option.some.injEq] at h
    rw [← h, hc.2 x σ1 hrun]
    exact hinv
  | undefined => rw [hrun] at h; simp [Outcome.andThen, Outcome.after] at h
  | outOfFuel => rw [hrun] at h; simp [Outcome.andThen, Outcome.after] at h

/-- Whenever the expression assignment leaves a store, the invariant has survived. -/
theorem Matrix.assignExpr_inv [Add T] (σ σ' : Store T) (m : Nat) (e : Expr) (fuel : Nat)
    (hinv : Store.inv σ) (h : (Matrix.assignExpr σ m e fuel).after = some σ') :
    Store.inv σ' := by
  unfold Matrix.assignExpr at h
  split at h
  · simp only [Outcome.after, Option.some.injEq] at h
    rw [← h]
    exact hinv
  · exact Matrix.assign_from_mat_expression_inv σ σ' m e fuel hinv h

/-- The invariant survives `steal`, also of an object from itself. -/
theorem Matrix.steal_inv (σ σ' : Store T) (r o : Nat) (hinv : Store.inv σ)
    (h : (Matrix.steal σ r o).after = some σ') : Store.inv σ' := by
  unfold Matrix.steal at h
  split at h
  · simp only [Outcome.after, Option.some.injEq] at h
    rw [← h]
    exact hinv
  · rename_i hsz
    have hsz' : (σ r).matSize_ = (σ o).matSize_ := not_not.mp hsz
    simp only [Outcome.after, Option.some.injEq] at h
    subst h
    intro k
    by_cases hko : k = o
    · subst hko
      simp [Store.set, Matrix.repOk]
    · by_cases hkr : k = r
      · subst hkr
        have hok : o ≠ k := fun h => hko h.symm
        have := hinv o
        unfold Matrix.repOk at this ⊢
        simp only [Store.set, hko, hok, if_false, if_true, hsz']
        exact this
      · simp only [Store.set, hko, hkr, if_false]
        exact hinv k

/-- The invariant survives the move constructor. -/
theorem Matrix.ctorMove_inv (σ σ' : Store T) (n o : Nat) (hinv : Store.inv σ)
    (h : (Matrix.ctorMove σ n o).after = some σ') : Store.inv σ' := by
  unfold Matrix.ctorMove at h
  simp only [Outcome.after, Option.some.injEq] at h
  subst h
  intro k
  by_cases hkn : k = n
  · subst hkn
    have := hinv o
    by_cases hko : k = o
    · subst hko
      unfold Matrix.repOk at this ⊢
      simpa [Store.set] using this
    · have hok : o ≠ k := fun h => hko h.symm
      unfold Matrix.repOk at this ⊢
      simpa [Store.set, hko, hok] using this
  · by_cases hko : k = o
    · subst hko
      simp [Store.set, hkn, Matrix.repOk]
    · simp only [Store.set, hkn, hko, if_false]
      exact hinv k

/-- The invariant survives `fill`. -/
theorem Matrix.fill_inv (σ σ' : Store T) (m : Nat) (v : T) (fuel : Nat) (hinv : Store.inv σ)
    (h : (Matrix.fill σ m v fuel).after = some σ') : Store.inv σ' := by
  unfold Matrix.fill at h
  cases hrun : Matrix.fillLoop m v fuel 0 σ with
  | ok σ1 u =>
    rw [hrun] at h
    simp only [Outcome.after, Option.some.injEq] at h
    subst h
    exact Store.inv_of_sameBut (Matrix.fillLoop_sameBut m v fuel 0 σ σ1 u hrun) hinv
  | raised x σ1 => exact absurd hrun (Matrix.fillLoop_not_raised m v fuel 0 σ x σ1)
  | undefined => rw [hrun] at h; simp [Outcome.after] at h
  | outOfFuel => rw [hrun] at h; simp [Outcome.after] at h

/-- The invariant survives a write through `operator()`. -/
theorem Matrix.write_inv (σ σ' : Store T) (m : Nat) (i j : Int) (v : T) (hinv : Store.inv σ)
    (h : (Matrix.write σ m i j v).after = some σ') : Store.inv σ' := by
  unfold Matrix.write at h
  split at h
  · simp [Outcome.after] at h
  · rename_i m' hput
    simp only [Outcome.after, Option.some.injEq] at h
    subst h
    exact Store.inv_of_sameBut (Matrix.put_sameBut hput) hinv

/-- The invariant survives a write through an iterator. -/
theorem Matrix.writeAt_inv (σ σ' : Store T) (m k : Nat) (v : T) (hinv : Store.inv σ)
    (h : (Matrix.writeAt σ m k v).after = some σ') : Store.inv σ' := by
  unfold Matrix.writeAt at h
  split at h
  · simp [Outcome.after] at h
  · rename_i m' hst
    simp only [Outcome.after, Option.some.injEq] at h
    subst h
    exact Store.inv_of_sameBut (Matrix.store_sameBut hst) hinv

/-- Every public operation that overflows no element count keeps the class invariant of every
object. -/
theorem Op.run_inv [Add T] (σ σ' : Store T) (op : Op T) (hinv : Store.inv σ)
    (hfit : op.noOverflow) (h : (Op.run σ op).after = some σ') : Store.inv σ' := by
  cases op with
  | ctorSize n matSize garbage =>
    have hc := Matrix.ctorSize_inv σ n matSize garbage hinv hfit
    simp only [Op.run] at h
    cases hrun : Matrix.ctorSize σ n matSize garbage with
    | ok σ1 u =>
      rw [hrun] at h
      simp only [Outcome.after, Option.some.injEq] at h
      rw [← h]
      exact hc.1 σ1 u hrun
    | raised x σ1 =>
      rw [hrun] at h
      simp only [Outcome.after, Option.some.injEq] at h
      rw [← h, hc.2 x σ1 hrun]
      exact hinv
    | undefined => rw [hrun] at h; simp [Outcome.after] at h
    | outOfFuel => rw [hrun] at h; simp [Outcome.after] at h
  | ctorExpr n e garbage fuel =>
    have hcount := Expr.size_count_of_inv hinv e
    exact Matrix.ctor_then_assign_inv σ σ' n (Expr.size σ e) e garbage fuel hinv
      (wrapInt_of_fits (by omega) hcount.2) h
  | ctorCopy n s garbage fuel =>
    have hcount := Matrix.repOk_count (hinv s)
    exact Matrix.ctor_then_assign_inv σ σ' n (σ s).size (.mat s) garbage fuel hinv
      (wrapInt_of_fits (by unfold Matrix.size; omega) hcount.2) h
  | ctorMove n o => exact Matrix.ctorMove_inv σ σ' n o hinv h
  | assignExpr m e fuel => exact Matrix.assignExpr_inv σ σ' m e fuel hinv h
  | assignCopy d s fuel => exact Matrix.assignExpr_inv σ σ' d (.mat s) fuel hinv h
  | steal r o => exact Matrix.steal_inv σ σ' r o hinv h
  | fill m val fuel => exact Matrix.fill_inv σ σ' m val fuel hinv h
  | write m i j v => exact Matrix.write_inv σ σ' m i j v hinv h
  | writeAt m k v => exact Matrix.writeAt_inv σ σ' m k v hinv h

/-- Every object of a reachable store is in its class invariant. -/
theorem Reachable.inv [Add T] {σ : Store T} (h : Reachable σ) : Store.inv σ := by
  induction h with
  | initial => exact Store.inv_initial
  | step σ1 σ2 op _ hfit hrun ih => exact Op.run_inv σ1 σ2 op ih hfit hrun

end InvariantLemmas

/-! ## The claims -/

section Claims

variable {T : Type}

/-- C1. Materialization by construction: for an expression `e` built over the store (leaves in
their class invariant, every `MatrixAdd` checked) with a non-negative shape, constructing a new
matrix `n` from `e` returns once the fuel exceeds both dimensions; the new matrix has the
size of `e`, every element of `e` inside the shape has a value, and the new matrix holds that
value at the same index pair.  No other matrix changes, so `e` keeps its size and elements. -/
theorem C1_materialization [Add T] (σ : Store T) (n : Nat) (e : Expr) (garbage : Nat → T)
    (fuel : Nat) (hwf : Expr.wf σ e) (hfresh : Expr.refers n e = false)
    (hr0 : 0 ≤ (Expr.size σ e).rows) (hc0 : 0 ≤ (Expr.size σ e).cols)
    (hfr : (Expr.size σ e).rows < fuel) (hfc : (Expr.size σ e).cols < fuel) :
    ∃ σ', Matrix.ctorExpr σ n e garbage fuel = .ok σ' () ∧
      (∀ k, k ≠ n → σ' k = σ k) ∧
      (σ' n).size = Expr.size σ e ∧ (σ' n).size = Expr.size σ' e ∧
      ∀ r c, (Expr.size σ e).inRange r c →
        ∃ v, Expr.call σ e r c = some v ∧ Expr.call σ' e r c = some v ∧
          (σ' n).call r c = some v := by
  obtain ⟨mat, hctor, hshape, hrep, _⟩ :=
    Matrix.ctorSize_spec σ n (Expr.size σ e) garbage hr0 hc0 (Expr.size_count_of_wf hwf).2
  have hagree : ∀ k, Expr.refers k e = true → σ.set n mat k = σ k := by
    intro k hk
    refine Store.set_other σ mat ?_
    intro hkn
    rw [hkn, hfresh] at hk
    exact Bool.false_ne_true hk
  have hsize1 : Expr.size (σ.set n mat) e = Expr.size σ e := Expr.size_congr hagree
  have hmat : (σ.set n mat n).matSize_ = Expr.size σ e := by rw [Store.set_same, hshape]
  obtain ⟨σ', hrun, hother, hsh, _, hcells⟩ :=
    Matrix.assign_from_mat_expression_spec (σ.set n mat) n e fuel
      (Expr.wf_congr hagree hwf) (by rw [Store.set_same]; exact hrep)
      (by rw [hsize1]; exact hmat) (Expr.straight_of_not_refers hfresh false)
      (by rw [hmat]; exact hr0) (by rw [hmat]; exact hc0)
      (by rw [hmat]; exact hfr) (by rw [hmat]; exact hfc)
  have hother' : ∀ k, k ≠ n → σ' k = σ k := by
    intro k hk
    rw [hother k hk, Store.set_other σ mat hk]
  have hagree' : ∀ k, Expr.refers k e = true → σ' k = σ k := by
    intro k hk
    refine hother' k ?_
    intro hkn
    rw [hkn, hfresh] at hk
    exact Bool.false_ne_true hk
  have hsz' : (σ' n).size = Expr.size σ e := by
    unfold Matrix.size
    rw [hsh, hmat]
  refine ⟨σ', ?_, hother', hsz', ?_, ?_⟩
  · simp only [Matrix.ctorExpr, hctor, Outcome.andThen]
    exact hrun
  · rw [hsz', Expr.size_congr hagree']
  · intro r c hin
    obtain ⟨v, hv⟩ := Expr.call_isSome hwf hin
    refine ⟨v, hv, ?_, ?_⟩
    · rw [Expr.call_congr hagree', hv]
    · rw [hcells r c (by rw [hmat]; exact hin), Expr.call_congr hagree, hv]

/-- Witness of C1: a new matrix `1` built from `transpose(mat 0)` over `store22`. -/
theorem C1_materialization_witness :
    ∃ σ', Matrix.ctorExpr store22 1 (.transpose (.mat 0)) (fun _ => 0) 3 = .ok σ' () ∧
      (∀ k, k ≠ 1 → σ' k = store22 k) ∧
      (σ' 1).size = Expr.size store22 (.transpose (.mat 0)) ∧
      (σ' 1).size = Expr.size σ' (.transpose (.mat 0)) ∧
      ∀ r c, (Expr.size store22 (.transpose (.mat 0))).inRange r c →
        ∃ v, Expr.call store22 (.transpose (.mat 0)) r c = some v ∧
          Expr.call σ' (.transpose (.mat 0)) r c = some v ∧ (σ' 1).call r c = some v :=
  C1_materialization store22 1 (.transpose (.mat 0)) (fun _ => 0) 3 (by decide) (by decide)
    (by decide) (by decide) (by decide) (by decide)

/-- C2, as stated, fails: in `store22` the assignment `M = transpose(M)` of the 2x2 matrix
with rows `1 2` and `3 4` has equal sizes and returns, the expression had the value `2` at
`(1, 0)` before the assignment, and `M(1, 0)` is `3` after it. -/
theorem C2_counterexample :
    ∃ σ', Matrix.assignExpr store22 0 (.transpose (.mat 0)) 3 = .ok σ' () ∧
      (store22 0).size = Expr.size store22 (.transpose (.mat 0)) ∧
      (store22 0).size.inRange 1 0 ∧
      Expr.call store22 (.transpose (.mat 0)) 1 0 = some 2 ∧
      (σ' 0).call 1 0 = some 3 :=
  ⟨_, rfl, by decide, by decide, by decide, by decide⟩

/-- C2, amended. Expression assignment result: for a matrix `m` in its class invariant with a
non-negative shape and an expression `e` built over the store with `e.size() == m.size()`, in
which `m` occurs as an operand only under an even number of `MatrixTranspose` nodes, the
assignment `m = e` returns once the fuel exceeds both dimensions, changes no other matrix,
keeps the size of `m`, and leaves in every cell of `m` inside the shape the value `e` had at
that index pair immediately before the assignment. -/
theorem C2_assign_straight [Add T] (σ : Store T) (m : Nat) (e : Expr) (fuel : Nat)
    (hwf : Expr.wf σ e) (hrep : (σ m).repOk) (hsz : (σ m).size = Expr.size σ e)
    (hst : Expr.straight m e false = true)
    (hr0 : 0 ≤ (σ m).size.rows) (hc0 : 0 ≤ (σ m).size.cols)
    (hfr : (σ m).size.rows < fuel) (hfc : (σ m).size.cols < fuel) :
    ∃ σ', Matrix.assignExpr σ m e fuel = .ok σ' () ∧
      (∀ k, k ≠ m → σ' k = σ k) ∧ (σ' m).size = (σ m).size ∧
      ∀ r c, (σ m).size.inRange r c →
        ∃ v, Expr.call σ e r c = some v ∧ (σ' m).call r c = some v := by
  obtain ⟨σ', hrun, hother, hsh, _, hcells⟩ :=
    Matrix.assign_from_mat_expression_spec σ m e fuel hwf hrep hsz hst hr0 hc0 hfr hfc
  refine ⟨σ', ?_, hother, hsh, ?_⟩
  · simp only [Matrix.assignExpr, hsz, ne_eq, not_true_eq_false, if_false]
    exact hrun
  · intro r c hin
    obtain ⟨v, hv⟩ := Expr.call_isSome hwf (r := r) (c := c) (by rw [← hsz]; exact hin)
    exact ⟨v, hv, by rw [hcells r c hin, hv]⟩

/-- Witness of the amended C2: `M = M + transpose(transpose(M))` over `store22`. -/
theorem C2_assign_straight_witness :
    ∃ σ', Matrix.assignExpr store22 0 (.add (.mat 0) (.transpose (.transpose (.mat 0)))) 3
        = .ok σ' () ∧
      (∀ k, k ≠ 0 → σ' k = store22 k) ∧ (σ' 0).size = (store22 0).size ∧
      ∀ r c, (store22 0).size.inRange r c →
        ∃ v, Expr.call store22 (.add (.mat 0) (.transpose (.transpose (.mat 0)))) r c = some v ∧
          (σ' 0).call r c = some v :=
  C2_assign_straight store22 0 (.add (.mat 0) (.transpose (.transpose (.mat 0)))) 3
    (by decide) (by decide) (by decide) (by decide) (by decide) (by decide) (by decide)
    (by decide)

/-- C3. Expression assignment is all-or-nothing: `m = e` throws
`mat_expers_size_diff_exception` if and only if `m.size() != e.size()`, it throws nothing
else, and at the throw the store, hence the shape and every element of `m`, is what it was
before the call. -/
theorem C3_assign_all_or_nothing [Add T] (σ : Store T) (m : Nat) (e : Expr) (fuel : Nat) :
    ((∃ σ', Matrix.assignExpr σ m e fuel = .raised .mat_expers_size_diff_exception σ') ↔
      (σ m).size ≠ Expr.size σ e) ∧
    (∀ x σ', Matrix.assignExpr σ m e fuel = .raised x σ' →
      x = .mat_expers_size_diff_exception ∧ σ' = σ ∧ (σ' m).size = (σ m).size ∧
        ∀ i j, (σ' m).call i j = (σ m).call i j) := by
  by_cases hsz : (σ m).size = Expr.size σ e
  · have hrun : Matrix.assignExpr σ m e fuel = Matrix.assignRows m e fuel fuel 0 σ := by
      simp [Matrix.assignExpr, hsz, Matrix.assign_from_mat_expression]
    constructor
    · constructor
      · rintro ⟨σ', h⟩
        rw [hrun] at h
        exact absurd h (Matrix.assignRows_not_raised m e fuel fuel 0 σ _ σ')
      · intro h
        exact absurd hsz h
    · intro x σ' h
      rw [hrun] at h
      exact absurd h (Matrix.assignRows_not_raised m e fuel fuel 0 σ x σ')
  · have hrun : Matrix.assignExpr σ m e fuel = .raised .mat_expers_size_diff_exception σ := by
      simp [Matrix.assignExpr, hsz]
    constructor
    · exact ⟨fun _ => hsz, fun _ => ⟨σ, hrun⟩⟩
    · intro x σ' h
      rw [hrun] at h
      simp only [Outcome.raised.injEq] at h
      obtain ⟨hx, hσ⟩ := h
      subst hσ
      exact ⟨hx.symm, rfl, rfl, fun _ _ => rfl⟩

/-- C4. Transpose node semantics: `transpose(e)` always returns a node and leaves the store as
it is; the node's size is that of `e` with rows and cols swapped, its element at `(r, c)` is
the element of `e` at `(c, r)`, and for `e` built over the store that element has a value
whenever `0 <= r < e.size().cols` and `0 <= c < e.size().rows`. -/
theorem C4_transpose_node [Add T] (σ : Store T) (e : Expr) :
    ∃ node, transpose σ e = .ok σ node ∧
      Expr.size σ node = ⟨(Expr.size σ e).cols, (Expr.size σ e).rows⟩ ∧
      (∀ r c : Int, Expr.call σ node r c = Expr.call σ e c r) ∧
      (Expr.wf σ e → ∀ r c : Int, 0 ≤ r ∧ r < (Expr.size σ e).cols →
        0 ≤ c ∧ c < (Expr.size σ e).rows →
        ∃ v, Expr.call σ e c r = some v ∧ Expr.call σ node r c = some v) := by
  refine ⟨.transpose e, rfl, rfl, fun _ _ => rfl, ?_⟩
  intro hwf r c hr hc
  obtain ⟨v, hv⟩ := Expr.call_isSome hwf (r := c) (c := r) ⟨hc.1, hc.2, hr.1, hr.2⟩
  exact ⟨v, hv, hv⟩

/-- C5. Transpose is an involution on values: `transpose(transpose(e))` has the size of `e`
and, at every index pair, the element of `e`; for `e` built over the store that element has a
value at every index pair inside the size of `e`. -/
theorem C5_transpose_involution [Add T] (σ : Store T) (e : Expr) :
    ∃ node1 node2, transpose σ e = .ok σ node1 ∧ transpose σ node1 = .ok σ node2 ∧
      Expr.size σ node2 = Expr.size σ e ∧
      (∀ r c : Int, Expr.call σ node2 r c = Expr.call σ e r c) ∧
      (Expr.wf σ e → ∀ r c : Int, (Expr.size σ e).inRange r c →
        ∃ v, Expr.call σ e r c = some v ∧ Expr.call σ node2 r c = some v) := by
  refine ⟨.transpose e, .transpose (.transpose e), rfl, rfl, rfl, fun _ _ => rfl, ?_⟩
  intro hwf r c hin
  obtain ⟨v, hv⟩ := Expr.call_isSome hwf hin
  exact ⟨v, hv, hv⟩

/-- C6. Add construction is validated eagerly: `e1 + e2` throws
`mat_expers_size_diff_exception` if and only if `e1.size() != e2.size()`, in particular for
sizes 3x4 and 8x7; at the throw the store is unchanged; with equal sizes the `MatrixAdd` node
of the two operands is returned and the store is unchanged. -/
theorem C6_add_validated (σ : Store T) (e1 e2 : Expr) :
    ((∃ σ', add σ e1 e2 = .raised .mat_expers_size_diff_exception σ') ↔
      Expr.size σ e1 ≠ Expr.size σ e2) ∧
    (∀ x σ', add σ e1 e2 = .raised x σ' → x = .mat_expers_size_diff_exception ∧ σ' = σ) ∧
    (Expr.size σ e1 = Expr.size σ e2 → add σ e1 e2 = .ok σ (.add e1 e2)) ∧
    (Expr.size σ e1 = ⟨3, 4⟩ → Expr.size σ e2 = ⟨8, 7⟩ →
      add σ e1 e2 = .raised .mat_expers_size_diff_exception σ) := by
  by_cases hsz : Expr.size σ e1 = Expr.size σ e2
  · have hrun : add σ e1 e2 = .ok σ (.add e1 e2) := by
      simp [add, MatrixAdd.ctor, hsz]
    refine ⟨⟨?_, fun h => absurd hsz h⟩, ?_, fun _ => hrun, ?_⟩
    · rintro ⟨σ', h⟩
      rw [hrun] at h
      cases h
    · intro x σ' h
      rw [hrun] at h
      cases h
    · intro h1 h2
      rw [h1, h2] at hsz
      exact absurd hsz (by decide)
  · have hrun : add σ e1 e2 = .raised .mat_expers_size_diff_exception σ := by
      simp [add, MatrixAdd.ctor, hsz]
    refine ⟨⟨fun _ => hsz, fun _ => ⟨σ, hrun⟩⟩, ?_, fun h => absurd h hsz, fun _ _ => hrun⟩
    intro x σ' h
    rw [hrun] at h
    simp only [Outcome.raised.injEq] at h
    exact ⟨h.1.symm, h.2.symm⟩

/-- C7. Add node semantics: for operands built over the store with equal sizes, `e1 + e2`
returns a node whose size is that of `e1` and of `e2`, and at every index pair inside that
size both operands have a value and the node's element is their sum. -/
theorem C7_add_node [Add T] (σ : Store T) (e1 e2 : Expr) (h1 : Expr.wf σ e1)
    (h2 : Expr.wf σ e2) (hsz : Expr.size σ e1 = Expr.size σ e2) :
    ∃ node, add σ e1 e2 = .ok σ node ∧
      Expr.size σ node = Expr.size σ e1 ∧ Expr.size σ node = Expr.size σ e2 ∧
      ∀ r c, (Expr.size σ node).inRange r c →
        ∃ a b, Expr.call σ e1 r c = some a ∧ Expr.call σ e2 r c = some b ∧
          Expr.call σ node r c = some (a + b) := by
  refine ⟨.add e1 e2, by simp [add, MatrixAdd.ctor, hsz], rfl, hsz, ?_⟩
  intro r c hin
  obtain ⟨a, ha⟩ := Expr.call_isSome h1 (r := r) (c := c) hin
  obtain ⟨b, hb⟩ := Expr.call_isSome h2 (r := r) (c := c) (by rw [← hsz]; exact hin)
  exact ⟨a, b, ha, hb, by simp [Expr.call, ha, hb]⟩

/-- Witness of C7: `mat 0 + transpose(mat 0)` over `store22`. -/
theorem C7_add_node_witness :
    ∃ node, add store22 (.mat 0) (.transpose (.mat 0)) = .ok store22 node ∧
      Expr.size store22 node = Expr.size store22 (.mat 0) ∧
      Expr.size store22 node = Expr.size store22 (.transpose (.mat 0)) ∧
      ∀ r c, (Expr.size store22 node).inRange r c →
        ∃ a b, Expr.call store22 (.mat 0) r c = some a ∧
          Expr.call store22 (.transpose (.mat 0)) r c = some b ∧
          Expr.call store22 node r c = some (a + b) :=
  C7_add_node store22 (.mat 0) (.transpose (.mat 0)) (by decide) (by decide) (by decide)

/-- C8. Chained addition of filled matrices: for a shape `s` and values `a`, `b`, when `A`
and `B` are distinct matrices of shape `s` (in their class invariant) and are filled with `a`
and `b` respectively, the two calls of `fill` returning once the fuel exceeds the number of
elements, then `A + B` has size `s` and the element `a + b` in every cell, and `(A + A) + B`
has size `s` and the element `a + a + b` in every cell. -/
theorem C8_chained_addition [Add T] (σ : Store T) (A B : Nat) (s : MatrixSize) (a b : T)
    (fuel : Nat) (hAB : A ≠ B) (hA : (σ A).repOk) (hB : (σ B).repOk)
    (hsA : (σ A).size = s) (hsB : (σ B).size = s) (hfuel : s.rows * s.cols < fuel) :
    ∃ σ', ((Matrix.fill σ A a fuel).andThen fun σ1 _ => Matrix.fill σ1 B b fuel) = .ok σ' () ∧
      ∃ sumAB sumAA sumAAB, add σ' (.mat A) (.mat B) = .ok σ' sumAB ∧
        add σ' (.mat A) (.mat A) = .ok σ' sumAA ∧ add σ' sumAA (.mat B) = .ok σ' sumAAB ∧
        Expr.size σ' sumAB = s ∧ Expr.size σ' sumAAB = s ∧
        ∀ r c, s.inRange r c →
          Expr.call σ' sumAB r c = some (a + b) ∧
          Expr.call σ' sumAAB r c = some (a + a + b) := by
  have hsA' : (σ A).matSize_ = s := hsA
  have hsB' : (σ B).matSize_ = s := hsB
  have hBA : B ≠ A := fun h => hAB h.symm
  obtain ⟨σ1, hrun1, hother1, hshape1, _, hcells1⟩ :=
    Matrix.fill_cells σ A a fuel hA (by rw [hsA']; exact hfuel)
  have h1B : σ1 B = σ B := hother1 B hBA
  obtain ⟨σ2, hrun2, hother2, hshape2, _, hcells2⟩ :=
    Matrix.fill_cells σ1 B b fuel (by rw [h1B]; exact hB) (by rw [h1B, hsB']; exact hfuel)
  have h2A : σ2 A = σ1 A := hother2 A hAB
  have hszA : (σ2 A).matSize_ = s := by rw [h2A, hshape1, hsA']
  have hszB : (σ2 B).matSize_ = s := by rw [hshape2, h1B, hsB']
  have hcA : ∀ r c, s.inRange r c → (σ2 A).call r c = some a := by
    intro r c hin
    rw [h2A]
    exact hcells1 r c (by rw [hsA']; exact hin)
  have hcB : ∀ r c, s.inRange r c → (σ2 B).call r c = some b := by
    intro r c hin
    exact hcells2 r c (by rw [h1B, hsB']; exact hin)
  refine ⟨σ2, by rw [hrun1]; exact hrun2, .add (.mat A) (.mat B), .add (.mat A) (.mat A),
    .add (.add (.mat A) (.mat A)) (.mat B), ?_, ?_, ?_, ?_, ?_, ?_⟩
  · simp only [add, MatrixAdd.ctor, Expr.size, Matrix.size, hszA, hszB, ne_eq,
      not_true_eq_false, if_false]
  · simp only [add, MatrixAdd.ctor, ne_eq, not_true_eq_false, if_false]
  · simp only [add, MatrixAdd.ctor, Expr.size, Matrix.size, hszA, hszB, ne_eq,
      not_true_eq_false, if_false]
  · simp only [Expr.size, Matrix.size, hszA]
  · simp only [Expr.size, Matrix.size, hszA]
  · intro r c hin
    simp only [Expr.call, hcA r c hin, hcB r c hin, and_self]

/-- Witness of C8, with the values of the test case `operator+`: two 3x4 matrices filled with
`2` and `6`; every cell of `A + B` is `8` and every cell of `(A + A) + B` is `10`. -/
theorem C8_chained_addition_witness :
    ∃ σ', ((Matrix.fill store34 0 (2 : Int) 13).andThen
        fun σ1 _ => Matrix.fill σ1 1 6 13) = .ok σ' () ∧
      ∃ sumAB sumAA sumAAB, add σ' (.mat 0) (.mat 1) = .ok σ' sumAB ∧
        add σ' (.mat 0) (.mat 0) = .ok σ' sumAA ∧ add σ' sumAA (.mat 1) = .ok σ' sumAAB ∧
        Expr.size σ' sumAB = ⟨3, 4⟩ ∧ Expr.size σ' sumAAB = ⟨3, 4⟩ ∧
        ∀ r c, MatrixSize.inRange ⟨3, 4⟩ r c →
          Expr.call σ' sumAB r c = some 8 ∧ Expr.call σ' sumAAB r c = some 10 :=
  C8_chained_addition store34 0 1 ⟨3, 4⟩ (2 : Int) 6 13 (by decide) (by decide) (by decide)
    (by decide) (by decide) (by decide)

/-- C9. `steal` is atomic on failure: `r.steal(o)` throws `mat_expers_size_diff_exception` if
and only if `r.size() != o.size()`, it throws nothing else, and at the throw the store is what
it was before the call: `r` and `o` keep their shape, their buffer and their emptiness. -/
theorem C9_steal_atomic (σ : Store T) (r o : Nat) :
    ((∃ σ', Matrix.steal σ r o = .raised .mat_expers_size_diff_exception σ') ↔
      (σ r).size ≠ (σ o).size) ∧
    (∀ x σ', Matrix.steal σ r o = .raised x σ' →
      x = .mat_expers_size_diff_exception ∧ σ' = σ ∧ σ' r = σ r ∧ σ' o = σ o ∧
        (σ' o).isEmpty = (σ o).isEmpty) := by
  by_cases hsz : (σ r).size = (σ o).size
  · constructor
    · constructor
      · rintro ⟨σ', h⟩
        simp [Matrix.steal, hsz] at h
      · intro h
        exact absurd hsz h
    · intro x σ' h
      simp [Matrix.steal, hsz] at h
  · have hrun : Matrix.steal σ r o = .raised .mat_expers_size_diff_exception σ := by
      simp [Matrix.steal, hsz]
    constructor
    · exact ⟨fun _ => hsz, fun _ => ⟨σ, hrun⟩⟩
    · intro x σ' h
      rw [hrun] at h
      simp only [Outcome.raised.injEq] at h
      obtain ⟨hx, hσ⟩ := h
      subst hσ
      exact ⟨hx.symm, rfl, rfl, rfl, rfl⟩

/-- C10. `steal` on success transfers the contents: for distinct matrices `r` and `o` of equal
size, `r.steal(o)` returns; afterwards `r` has its size unchanged and at every index pair the
element `o` had (it is the matrix `o` was), `o` has size `(0, 0)` and is empty, and no other
matrix has changed. -/
theorem C10_steal_transfers (σ : Store T) (r o : Nat) (hne : r ≠ o)
    (hsz : (σ r).size = (σ o).size) :
    ∃ σ', Matrix.steal σ r o = .ok σ' () ∧
      (σ' r).size = (σ r).size ∧ σ' r = σ o ∧
      (∀ i j, (σ' r).call i j = (σ o).call i j) ∧
      (σ' o).size = ⟨0, 0⟩ ∧ (σ' o).isEmpty = true ∧
      ∀ k, k ≠ r → k ≠ o → σ' k = σ k := by
  have hsz' : (σ r).matSize_ = (σ o).matSize_ := hsz
  have hne' : o ≠ r := fun h => hne h.symm
  unfold Matrix.steal
  rw [if_neg (not_not.mpr hsz)]
  refine ⟨_, rfl, ?_, ?_, ?_, ?_, ?_, ?_⟩
  · simp [Store.set, hne, hne', Matrix.size]
  · simp [Store.set, hne, hne', hsz']
  · intro i j
    simp [Store.set, hne, hne', Matrix.call, Matrix.offset, hsz']
  · simp [Store.set, Matrix.size]
  · simp [Store.set, hne', Matrix.isEmpty]
  · intro k hkr hko
    simp [Store.set, hkr, hko]

/-- Witness of C10: in `storeMixed` the 1x3 matrix `1` steals from the 1x3 matrix `2`. -/
theorem C10_steal_transfers_witness :
    ∃ σ', Matrix.steal storeMixed 1 2 = .ok σ' () ∧
      (σ' 1).size = (storeMixed 1).size ∧ σ' 1 = storeMixed 2 ∧
      (∀ i j, (σ' 1).call i j = (storeMixed 2).call i j) ∧
      (σ' 2).size = ⟨0, 0⟩ ∧ (σ' 2).isEmpty = true ∧
      ∀ k, k ≠ 1 → k ≠ 2 → σ' k = storeMixed k :=
  C10_steal_transfers storeMixed 1 2 (by decide) (by decide)

/-- C11. Move-construction: constructing a new object `n` from the matrix `o` by move returns
(there is no failing path); `n` has the shape and every element `o` had (it is the matrix `o`
was), `o` is left with size `(0, 0)` and empty, and no other matrix changes. -/
theorem C11_move_construction (σ : Store T) (n o : Nat) (hne : n ≠ o) :
    ∃ σ', Matrix.ctorMove σ n o = .ok σ' () ∧
      (σ' n).size = (σ o).size ∧ (∀ i j, (σ' n).call i j = (σ o).call i j) ∧ σ' n = σ o ∧
      (σ' o).size = ⟨0, 0⟩ ∧ (σ' o).isEmpty = true ∧
      ∀ k, k ≠ n → k ≠ o → σ' k = σ k := by
  have hne' : o ≠ n := fun h => hne h.symm
  unfold Matrix.ctorMove
  refine ⟨_, rfl, ?_, ?_, ?_, ?_, ?_, ?_⟩
  · simp [Store.set, hne, hne', Matrix.size]
  · intro i j
    simp [Store.set, hne, hne', Matrix.call, Matrix.offset]
  · simp [Store.set, hne, hne']
  · simp [Store.set, hne, hne', Matrix.size]
  · simp [Store.set, hne, hne', Matrix.isEmpty]
  · intro k hkn hko
    simp [Store.set, hkn, hko]

/-- Witness of C11: in `storeMixed` a new object `5` is move-constructed from the 2x2
matrix `0`. -/
theorem C11_move_construction_witness :
    ∃ σ', Matrix.ctorMove storeMixed 5 0 = .ok σ' () ∧
      (σ' 5).size = (storeMixed 0).size ∧
      (∀ i j, (σ' 5).call i j = (storeMixed 0).call i j) ∧ σ' 5 = storeMixed 0 ∧
      (σ' 0).size = ⟨0, 0⟩ ∧ (σ' 0).isEmpty = true ∧
      ∀ k, k ≠ 5 → k ≠ 0 → σ' k = storeMixed k :=
  C11_move_construction storeMixed 5 0 (by decide)

/-- C12. Copy-assignment is shape-checked: for matrices `d` and `s` in their class invariant,
`d` of non-negative shape, `d = s` throws `mat_expers_size_diff_exception` if and only if
`d.size() != s.size()`, it throws nothing else, and at the throw the store is what it was
before the call; with equal sizes and fuel beyond both dimensions it returns, `d == s` is
`true` afterwards, and `s` has the size and the elements it had. -/
theorem C12_copy_assignment [Add T] [DecidableEq T] (σ : Store T) (d s : Nat) (fuel : Nat)
    (hd : (σ d).repOk) (hs : (σ s).repOk)
    (hr0 : 0 ≤ (σ d).size.rows) (hc0 : 0 ≤ (σ d).size.cols)
    (hfr : (σ d).size.rows < fuel) (hfc : (σ d).size.cols < fuel) :
    ((∃ σ', Matrix.assignCopy σ d s fuel = .raised .mat_expers_size_diff_exception σ') ↔
      (σ d).size ≠ (σ s).size) ∧
    (∀ x σ', Matrix.assignCopy σ d s fuel = .raised x σ' →
      x = .mat_expers_size_diff_exception ∧ σ' = σ) ∧
    ((σ d).size = (σ s).size →
      ∃ σ', Matrix.assignCopy σ d s fuel = .ok σ' () ∧
        Matrix.equals σ' d s fuel = .ok σ' true ∧
        (σ' s).size = (σ s).size ∧
        (∀ i j, (σ s).size.inRange i j → (σ' s).call i j = (σ s).call i j) ∧
        (s ≠ d → σ' s = σ s)) := by
  by_cases hsz : (σ d).size = (σ s).size
  · have hrun : Matrix.assignCopy σ d s fuel = Matrix.assignRows d (.mat s) fuel fuel 0 σ := by
      simp [Matrix.assignCopy, Matrix.assignExpr, Expr.size, hsz,
        Matrix.assign_from_mat_expression]
    refine ⟨⟨?_, fun h => absurd hsz h⟩, ?_, ?_⟩
    · rintro ⟨σ', h⟩
      rw [hrun] at h
      exact absurd h (Matrix.assignRows_not_raised d (.mat s) fuel fuel 0 σ _ σ')
    · intro x σ' h
      rw [hrun] at h
      exact absurd h (Matrix.assignRows_not_raised d (.mat s) fuel fuel 0 σ x σ')
    · intro _
      obtain ⟨σ', hassign, hother, hshape, hrep', hcells⟩ :=
        Matrix.assign_from_mat_expression_spec σ d (.mat s) fuel hs hd hsz
          (by simp [Expr.straight]) hr0 hc0 hfr hfc
      have hcells' : ∀ i j, (σ d).size.inRange i j → (σ' d).call i j = (σ s).call i j :=
        fun i j hin => hcells i j hin
      have hsize_d : (σ' d).size = (σ d).size := hshape
      have hS : (σ' s).size = (σ s).size ∧
          (∀ i j, (σ s).size.inRange i j → (σ' s).call i j = (σ s).call i j) ∧
          (σ' s).repOk := by
        by_cases hsd : s = d
        · subst hsd
          exact ⟨hsize_d, fun i j hin => hcells' i j hin, hrep'⟩
        · rw [hother s hsd]
          exact ⟨rfl, fun _ _ _ => rfl, hs⟩
      obtain ⟨b, heq, hb⟩ :=
        Matrix.equals_spec σ' d s fuel hrep' hS.2.2 (by rw [hsize_d]; exact hr0)
          (by rw [hsize_d]; exact hc0) (by rw [hsize_d]; exact hfr)
          (by rw [hsize_d]; exact hfc)
      have hbt : b = true := by
        rw [hb]
        refine ⟨by rw [hsize_d, hS.1, hsz], ?_⟩
        intro i j hin
        rw [hsize_d] at hin
        rw [hcells' i j hin, hS.2.1 i j (by rw [← hsz]; exact hin)]
      subst hbt
      refine ⟨σ', ?_, heq, hS.1, hS.2.1, fun hsd => hother s hsd⟩
      rw [hrun]
      exact hassign
  · have hrun : Matrix.assignCopy σ d s fuel = .raised .mat_expers_size_diff_exception σ := by
      simp [Matrix.assignCopy, Matrix.assignExpr, Expr.size, hsz]
    refine ⟨⟨fun _ => hsz, fun _ => ⟨σ, hrun⟩⟩, ?_, fun h => absurd h hsz⟩
    intro x σ' h
    rw [hrun] at h
    simp only [Outcome.raised.injEq] at h
    exact ⟨h.1.symm, h.2.symm⟩

/-- Witness of C12: in `storeMixed` the 1x3 matrix `1` is copy-assigned from the 1x3
matrix `2`. -/
theorem C12_copy_assignment_witness :
    ((∃ σ', Matrix.assignCopy storeMixed 1 2 4 = .raised .mat_expers_size_diff_exception σ') ↔
      (storeMixed 1).size ≠ (storeMixed 2).size) ∧
    (∀ x σ', Matrix.assignCopy storeMixed 1 2 4 = .raised x σ' →
      x = .mat_expers_size_diff_exception ∧ σ' = storeMixed) ∧
    ((storeMixed 1).size = (storeMixed 2).size →
      ∃ σ', Matrix.assignCopy storeMixed 1 2 4 = .ok σ' () ∧
        Matrix.equals σ' 1 2 4 = .ok σ' true ∧
        (σ' 2).size = (storeMixed 2).size ∧
        (∀ i j, (storeMixed 2).size.inRange i j →
          (σ' 2).call i j = (storeMixed 2).call i j) ∧
        (2 ≠ 1 → σ' 2 = storeMixed 2)) :=
  C12_copy_assignment storeMixed 1 2 4 (by decide) (by decide) (by decide) (by decide)
    (by decide) (by decide)

/-- C13. Copy-construction: for a matrix `s` in its class invariant with a non-negative shape,
constructing a new object `n` as a copy of `s` returns once the fuel exceeds both dimensions;
`n == s` is `true` afterwards (same size, every element equal) and `s` is unchanged; any later
element write or `fill` on the copy leaves `s`, its shape and every element, unchanged, and
inside the shape, respectively with fuel beyond the number of elements, these do return. -/
theorem C13_copy_construction [Add T] [DecidableEq T] (σ : Store T) (n s : Nat)
    (garbage : Nat → T) (fuel : Nat) (hne : n ≠ s) (hs : (σ s).repOk)
    (hr0 : 0 ≤ (σ s).size.rows) (hc0 : 0 ≤ (σ s).size.cols)
    (hfr : (σ s).size.rows < fuel) (hfc : (σ s).size.cols < fuel) :
    ∃ σ', Matrix.ctorCopy σ n s garbage fuel = .ok σ' () ∧
      Matrix.equals σ' n s fuel = .ok σ' true ∧
      (σ' n).size = (σ s).size ∧
      (∀ i j, (σ s).size.inRange i j → (σ' n).call i j = (σ s).call i j) ∧
      σ' s = σ s ∧
      (∀ i j v σ'', Matrix.write σ' n i j v = .ok σ'' () → σ'' s = σ s) ∧
      (∀ v fuel' σ'', Matrix.fill σ' n v fuel' = .ok σ'' () → σ'' s = σ s) ∧
      (∀ i j v, (σ' n).size.inRange i j → ∃ σ'', Matrix.write σ' n i j v = .ok σ'' ()) ∧
      (∀ v (fuel' : Nat), (σ' n).size.rows * (σ' n).size.cols < fuel' →
        ∃ σ'', Matrix.fill σ' n v fuel' = .ok σ'' ()) := by
  have hsn : s ≠ n := fun h => hne h.symm
  obtain ⟨mat, hctor, hmshape, hmrep, _⟩ :=
    Matrix.ctorSize_spec σ n (σ s).size garbage hr0 hc0 (Matrix.repOk_count hs).2
  have h1s : σ.set n mat s = σ s := Store.set_other σ mat hsn
  have h1n : σ.set n mat n = mat := Store.set_same σ n mat
  have hsz1 : (σ.set n mat n).size = Expr.size (σ.set n mat) (.mat s) := by
    simp only [Expr.size]
    rw [h1s, h1n]
    exact hmshape
  have hnsz : (σ.set n mat n).matSize_ = (σ s).size := by rw [h1n]; exact hmshape
  obtain ⟨σ', hassign, hother, hshape, hrep', hcells⟩ :=
    Matrix.assign_from_mat_expression_spec (σ.set n mat) n (.mat s) fuel
      (by simp only [Expr.wf]; rw [h1s]; exact hs) (by rw [h1n]; exact hmrep) hsz1
      (by simp [Expr.straight]) (by rw [hnsz]; exact hr0) (by rw [hnsz]; exact hc0)
      (by rw [hnsz]; exact hfr) (by rw [hnsz]; exact hfc)
  have hs' : σ' s = σ s := by rw [hother s hsn, h1s]
  have hsize_n : (σ' n).size = (σ s).size := by
    show (σ' n).matSize_ = (σ s).size
    rw [hshape]
    exact hnsz
  have hcells' : ∀ i j, (σ s).size.inRange i j → (σ' n).call i j = (σ s).call i j := by
    intro i j hin
    rw [hcells i j (by rw [hnsz]; exact hin)]
    simp only [Expr.call]
    rw [h1s]
  obtain ⟨b, heq, hb⟩ :=
    Matrix.equals_spec σ' n s fuel hrep' (by rw [hs']; exact hs) (by rw [hsize_n]; exact hr0)
      (by rw [hsize_n]; exact hc0) (by rw [hsize_n]; exact hfr) (by rw [hsize_n]; exact hfc)
  have hbt : b = true := by
    rw [hb]
    refine ⟨by rw [hsize_n, hs'], ?_⟩
    intro i j hin
    rw [hsize_n] at hin
    rw [hcells' i j hin, hs']
  subst hbt
  refine ⟨σ', ?_, heq, hsize_n, hcells', hs', ?_, ?_, ?_, ?_⟩
  · simp only [Matrix.ctorCopy, hctor, Outcome.andThen]
    exact hassign
  · intro i j v σ'' hw
    unfold Matrix.write at hw
    split at hw
    · simp at hw
    · simp only [Outcome.ok.injEq, and_true] at hw
      rw [← hw, Store.set_other _ _ hsn, hs']
  · intro v fuel' σ'' hf
    have := Matrix.fillLoop_sameBut n v fuel' 0 σ' σ'' () hf
    rw [this.1 s hsn, hs']
  · intro i j v hin
    obtain ⟨m', hput, _, _⟩ := Matrix.put_isSome hrep' hin v
    exact ⟨σ'.set n m', by simp [Matrix.write, hput]⟩
  · intro v fuel' hfuel'
    obtain ⟨σ'', hrun, _⟩ := Matrix.fill_spec σ' n v fuel' hrep' hfuel'
    exact ⟨σ'', hrun⟩

/-- Witness of C13: in `storeMixed` a new object `5` is constructed as a copy of the 2x2
matrix `0`. -/
theorem C13_copy_construction_witness :
    ∃ σ', Matrix.ctorCopy storeMixed 5 0 (fun _ => 0) 3 = .ok σ' () ∧
      Matrix.equals σ' 5 0 3 = .ok σ' true ∧
      (σ' 5).size = (storeMixed 0).size ∧
      (∀ i j, (storeMixed 0).size.inRange i j → (σ' 5).call i j = (storeMixed 0).call i j) ∧
      σ' 0 = storeMixed 0 ∧
      (∀ i j v σ'', Matrix.write σ' 5 i j v = .ok σ'' () → σ'' 0 = storeMixed 0) ∧
      (∀ v fuel' σ'', Matrix.fill σ' 5 v fuel' = .ok σ'' () → σ'' 0 = storeMixed 0) ∧
      (∀ i j v, (σ' 5).size.inRange i j → ∃ σ'', Matrix.write σ' 5 i j v = .ok σ'' ()) ∧
      (∀ v (fuel' : Nat), (σ' 5).size.rows * (σ' 5).size.cols < fuel' →
        ∃ σ'', Matrix.fill σ' 5 v fuel' = .ok σ'' ()) :=
  C13_copy_construction storeMixed 5 0 (fun _ => 0) 3 (by decide) (by decide) (by decide)
    (by decide) (by decide) (by decide)

/-- C14. Structural equality: for matrices `l` and `r` in their class invariant, `l` of
non-negative shape, `l == r` returns once the fuel exceeds both dimensions, without changing
the store; it returns `true` if and only if `l.size() == r.size()` and `l(i, j)` equals
`r(i, j)` at every index pair inside the shape; matrices of different size compare not-equal,
whatever their contents, and two empty matrices of the same size compare equal. -/
theorem C14_structural_equality [DecidableEq T] (σ : Store T) (l r : Nat) (fuel : Nat)
    (hl : (σ l).repOk) (hr : (σ r).repOk)
    (hr0 : 0 ≤ (σ l).size.rows) (hc0 : 0 ≤ (σ l).size.cols)
    (hfr : (σ l).size.rows < fuel) (hfc : (σ l).size.cols < fuel) :
    ∃ b, Matrix.equals σ l r fuel = .ok σ b ∧
      (b = true ↔ (σ l).size = (σ r).size ∧
        ∀ i j, (σ l).size.inRange i j → (σ l).call i j = (σ r).call i j) ∧
      ((σ l).size ≠ (σ r).size → b = false) ∧
      ((σ l).isEmpty = true → (σ r).isEmpty = true → (σ l).size = (σ r).size → b = true) := by
  obtain ⟨b, hrun, hb⟩ := Matrix.equals_spec σ l r fuel hl hr hr0 hc0 hfr hfc
  refine ⟨b, hrun, hb, ?_, ?_⟩
  · intro hne
    cases b with
    | false => rfl
    | true => exact absurd (hb.mp rfl).1 hne
  · intro hle _ hsz
    rw [hb]
    refine ⟨hsz, ?_⟩
    intro i j hin
    exfalso
    unfold Matrix.isEmpty at hle
    unfold Matrix.repOk at hl
    cases ha : (σ l).arr_ with
    | none =>
      rw [ha] at hl
      have hl' : (σ l).size.rows = 0 ∨ (σ l).size.cols = 0 := hl
      obtain ⟨_, _, _, _⟩ := hin
      omega
    | some a => rw [ha] at hle; simp at hle

/-- Witness of C14: the 2x2 matrix `0` and the 1x3 matrix `1` of `storeMixed`. -/
theorem C14_structural_equality_witness :
    ∃ b, Matrix.equals storeMixed 0 1 3 = .ok storeMixed b ∧
      (b = true ↔ (storeMixed 0).size = (storeMixed 1).size ∧
        ∀ i j, (storeMixed 0).size.inRange i j →
          (storeMixed 0).call i j = (storeMixed 1).call i j) ∧
      ((storeMixed 0).size ≠ (storeMixed 1).size → b = false) ∧
      ((storeMixed 0).isEmpty = true → (storeMixed 1).isEmpty = true →
        (storeMixed 0).size = (storeMixed 1).size → b = true) :=
  C14_structural_equality storeMixed 0 1 3 (by decide) (by decide) (by decide) (by decide)
    (by decide) (by decide)

/-- C15, as stated, fails: from the initial store the one public operation
`Matrix<int>{ MatrixSize{ 65536, 65537 } }` returns, the `int` product `65536 * 65537` having
wrapped to `65536`; the matrix it has made has shape `(65536, 65537)` and a buffer of `65536`
elements, not of `rows * cols = 4295032832`.  And for the non-negative shape
`(46341, 46341)` no matrix is constructed: the product wraps to a negative count and the
constructor throws `std::bad_array_new_length`. -/
theorem C15_counterexample :
    (∃ σ' a, Op.run (Store.initial : Store Int) (.ctorSize 0 ⟨65536, 65537⟩ fun _ => 0)
        = .ok σ' () ∧
      (σ' 0).arr_ = some a ∧ (a.length : Int) = 65536 ∧
      (σ' 0).size.rows * (σ' 0).size.cols = 4295032832) ∧
    Op.run (Store.initial : Store Int) (.ctorSize 0 ⟨46341, 46341⟩ fun _ => 0)
      = .raised .bad_array_new_length Store.initial := by
  refine ⟨?_, Matrix.ctorSize_wraps_negative Store.initial 0 fun _ => 0⟩
  have hw : wrapInt (65536 * 65537) = 65536 := by decide
  refine ⟨Store.initial.set 0 ⟨⟨65536, 65537⟩, some ((List.range 65536).map fun _ => 0)⟩,
    (List.range 65536).map fun _ => 0, ?_, ?_, ?_, ?_⟩
  · have hz : ¬ ((65536 : Int) = 0 ∨ (65537 : Int) = 0) := by decide
    have hneg : ¬ ((65536 : Int) < 0) := by decide
    have hn : (65536 : Int).toNat = 65536 := by decide
    simp only [Op.run, Matrix.ctorSize, hz, hw, hneg, hn, if_false]
  · rw [Store.set_same]
  · simp only [List.length_map, List.length_range]
    decide
  · rw [Store.set_same]
    decide

/-- C15, amended. Emptiness invariant: in every store the program can reach by public
operations (size, expression, copy and move construction, expression and copy assignment,
`steal`, `fill`, element writes) whose size constructions are called with a shape whose
`rows * cols` does not overflow `int`, every matrix has its buffer absent if and only if
`rows == 0` or `cols == 0`, a present buffer has exactly `rows * cols` elements, and
`isEmpty()` is true if and only if the shape has a zero dimension; constructing a matrix there
with a non-negative shape `(r, c)`, `r * c <= INT_MAX`, returns a matrix of that shape, and
whenever a construction with any shape returns, `isEmpty()` of the new matrix is true exactly
when `r == 0` or `c == 0`. -/
theorem C15_emptiness_invariant [Add T] (σ : Store T) (hreach : Reachable σ) (k : Nat) :
    ((σ k).arr_ = none ↔ (σ k).size.rows = 0 ∨ (σ k).size.cols = 0) ∧
    (∀ a, (σ k).arr_ = some a → (a.length : Int) = (σ k).size.rows * (σ k).size.cols) ∧
    ((σ k).isEmpty = true ↔ (σ k).size.rows = 0 ∨ (σ k).size.cols = 0) ∧
    (∀ (n : Nat) (s : MatrixSize) (garbage : Nat → T), 0 ≤ s.rows → 0 ≤ s.cols →
      s.rows * s.cols ≤ INT_MAX →
      ∃ σ', Matrix.ctorSize σ n s garbage = .ok σ' () ∧ (σ' n).size = s ∧
        ((σ' n).isEmpty = true ↔ s.rows = 0 ∨ s.cols = 0)) ∧
    (∀ (n : Nat) (s : MatrixSize) (garbage : Nat → T) (σ' : Store T),
      Matrix.ctorSize σ n s garbage = .ok σ' () →
        ((σ' n).isEmpty = true ↔ s.rows = 0 ∨ s.cols = 0)) := by
  have hk := hreach.inv k
  have hnone : (σ k).arr_ = none ↔ (σ k).size.rows = 0 ∨ (σ k).size.cols = 0 := by
    unfold Matrix.repOk at hk
    unfold Matrix.size
    cases ha : (σ k).arr_ with
    | none =>
      rw [ha] at hk
      simpa using hk
    | some a =>
      rw [ha] at hk
      simp only at hk
      simp only [reduceCtorEq, false_iff, not_or]
      exact ⟨hk.1, hk.2.1⟩
  refine ⟨hnone, ?_, ?_, ?_, ?_⟩
  · intro a ha
    unfold Matrix.repOk at hk
    rw [ha] at hk
    exact hk.2.2.1
  · rw [← hnone]
    unfold Matrix.isEmpty
    cases (σ k).arr_ <;> simp
  · intro n s garbage hr0 hc0 hfit
    obtain ⟨mat, hctor, hshape, _, hempty⟩ := Matrix.ctorSize_spec σ n s garbage hr0 hc0 hfit
    refine ⟨σ.set n mat, hctor, ?_, ?_⟩
    · rw [Store.set_same]; exact hshape
    · rw [Store.set_same]; exact hempty
  · intro n s garbage σ' hrun
    unfold Matrix.ctorSize at hrun
    by_cases hz : s.rows = 0 ∨ s.cols = 0
    · simp only [hz, if_true, Outcome.ok.injEq, and_true] at hrun
      rw [← hrun, Store.set_same]
      simp [Matrix.isEmpty, hz]
    · simp only [hz, if_false] at hrun
      split at hrun
      · simp at hrun
      · simp only [Outcome.ok.injEq, and_true] at hrun
        rw [← hrun, Store.set_same]
        simp [Matrix.isEmpty, hz]

/-- Witness of the amended C15: the store reached by constructing the object `0` with size
2x3 and move-constructing the object `1` from it; the moved-from object `0` is looked at. -/
theorem C15_emptiness_invariant_witness :
    ((storeMoved 0).arr_ = none ↔ (storeMoved 0).size.rows = 0 ∨ (storeMoved 0).size.cols = 0) ∧
    (∀ a, (storeMoved 0).arr_ = some a →
      (a.length : Int) = (storeMoved 0).size.rows * (storeMoved 0).size.cols) ∧
    ((storeMoved 0).isEmpty = true ↔
      (storeMoved 0).size.rows = 0 ∨ (storeMoved 0).size.cols = 0) ∧
    (∀ (n : Nat) (s : MatrixSize) (garbage : Nat → Int), 0 ≤ s.rows → 0 ≤ s.cols →
      s.rows * s.cols ≤ INT_MAX →
      ∃ σ', Matrix.ctorSize storeMoved n s garbage = .ok σ' () ∧ (σ' n).size = s ∧
        ((σ' n).isEmpty = true ↔ s.rows = 0 ∨ s.cols = 0)) ∧
    (∀ (n : Nat) (s : MatrixSize) (garbage : Nat → Int) (σ' : Store Int),
      Matrix.ctorSize storeMoved n s garbage = .ok σ' () →
        ((σ' n).isEmpty = true ↔ s.rows = 0 ∨ s.cols = 0)) :=
  C15_emptiness_invariant storeMoved
    (Reachable.step (Store.initial.set 0 ⟨⟨2, 3⟩, some [0, 0, 0, 0, 0, 0]⟩) storeMoved
      (.ctorMove 1 0)
      (Reachable.step Store.initial _ (.ctorSize 0 ⟨2, 3⟩ (fun _ => 0)) Reachable.initial
        (by decide) rfl)
      trivial rfl) 0

/-- C16. `fill` sets every element: for a matrix `m` in its class invariant and a value `v`,
`m.fill(v)` returns once the fuel exceeds the number of elements; afterwards the shape of `m`
is unchanged, `m(i, j)` is `v` at every index pair inside the shape, iterating `m` yields
`rows * cols` elements that all equal `v`, no other matrix has changed, and on an empty matrix
nothing has changed at all. -/
theorem C16_fill (σ : Store T) (m : Nat) (v : T) (fuel : Nat) (hrep : (σ m).repOk)
    (hfuel : (σ m).size.rows * (σ m).size.cols < fuel) :
    ∃ σ', Matrix.fill σ m v fuel = .ok σ' () ∧
      (σ' m).size = (σ m).size ∧
      (∀ i j, (σ m).size.inRange i j → (σ' m).call i j = some v) ∧
      (∃ ys, Matrix.iterate σ' m fuel = .ok σ' ys ∧
        (ys.length : Int) = (σ m).size.rows * (σ m).size.cols ∧ ∀ y ∈ ys, y = v) ∧
      (∀ k, k ≠ m → σ' k = σ k) ∧
      ((σ m).isEmpty = true → σ' = σ) := by
  obtain ⟨σ', hrun, hother, hshape, harr, hnone⟩ := Matrix.fill_spec σ m v fuel hrep hfuel
  have hrep' : (σ' m).repOk :=
    Matrix.repOk_of_same hshape (by rw [harr]; cases (σ m).arr_ <;> simp) hrep
  refine ⟨σ', hrun, hshape, ?_, ?_, hother, ?_⟩
  · intro i j hin
    obtain ⟨h0, _, a, ha, hlt⟩ := Matrix.offset_in_buffer hrep hin
    rw [ha] at harr
    simp only [Option.map_some'] at harr
    have hoff : (σ' m).offset i j = (σ m).offset i j := by
      unfold Matrix.offset
      rw [hshape]
    have hlt' : ((σ m).offset i j).toNat < a.length := by omega
    simp [Matrix.call, harr, hoff, h0, hlt']
  · obtain ⟨hit, hlen⟩ := Matrix.iterate_spec σ' m fuel hrep' (by rw [hshape]; exact hfuel)
    refine ⟨_, hit, by rw [hlen, hshape]; rfl, ?_⟩
    intro y hy
    rw [harr] at hy
    cases ha : (σ m).arr_ with
    | none => rw [ha] at hy; simp at hy
    | some a =>
      rw [ha] at hy
      simp only [Option.map_some', Option.getD_some] at hy
      exact List.eq_of_mem_replicate hy
  · intro hempty
    apply hnone
    unfold Matrix.isEmpty at hempty
    cases ha : (σ m).arr_ with
    | none => rfl
    | some a => rw [ha] at hempty; simp at hempty

/-- Witness of C16: the 2x2 matrix `0` of `store22` is filled with `7`. -/
theorem C16_fill_witness :
    ∃ σ', Matrix.fill store22 0 7 5 = .ok σ' () ∧
      (σ' 0).size = (store22 0).size ∧
      (∀ i j, (store22 0).size.inRange i j → (σ' 0).call i j = some 7) ∧
      (∃ ys, Matrix.iterate σ' 0 5 = .ok σ' ys ∧
        (ys.length : Int) = (store22 0).size.rows * (store22 0).size.cols ∧ ∀ y ∈ ys, y = 7) ∧
      (∀ k, k ≠ 0 → σ' k = store22 k) ∧
      ((store22 0).isEmpty = true → σ' = store22) :=
  C16_fill store22 0 7 5 (by decide) (by decide)

/-- C17. Iteration is row-major and complete: for a matrix `m` in its class invariant with a
shape `(rows, cols)`, `cols` non-negative, iterating from `begin()` to `end()` returns once the fuel
exceeds the number of elements and leaves the store as it is, so that iterating again yields
the same sequence; it yields exactly `rows * cols` elements, the `k`-th of them is
`m(k / cols, k % cols)`, an index pair inside the shape; and a write of `v` through the `k`-th
position returns and makes `m(k / cols, k % cols)` read `v` and the iteration yield `v` at
position `k`, the rest as before. -/
theorem C17_iteration (σ : Store T) (m : Nat) (fuel : Nat) (hrep : (σ m).repOk)
    (hc0 : 0 ≤ (σ m).size.cols)
    (hfuel : (σ m).size.rows * (σ m).size.cols < fuel) :
    ∃ ys, Matrix.iterate σ m fuel = .ok σ ys ∧
      ((Matrix.iterate σ m fuel).andThen fun σ1 _ => Matrix.iterate σ1 m fuel) = .ok σ ys ∧
      (ys.length : Int) = (σ m).size.rows * (σ m).size.cols ∧
      (∀ k : Nat, k < ys.length →
        (σ m).size.inRange ((k : Int) / (σ m).size.cols) ((k : Int) % (σ m).size.cols) ∧
        ∃ y, ys[k]? = some y ∧
          (σ m).call ((k : Int) / (σ m).size.cols) ((k : Int) % (σ m).size.cols) = some y) ∧
      (∀ (k : Nat) (v : T), k < ys.length →
        ∃ σ', Matrix.writeAt σ m k v = .ok σ' () ∧
          (σ' m).call ((k : Int) / (σ m).size.cols) ((k : Int) % (σ m).size.cols) = some v ∧
          Matrix.iterate σ' m fuel = .ok σ' (ys.set k v)) := by
  obtain ⟨hit, hlen⟩ := Matrix.iterate_spec σ m fuel hrep hfuel
  refine ⟨_, hit, by rw [hit]; simpa [Outcome.andThen] using hit, hlen, ?_, ?_⟩
  · intro k hk
    cases ha : (σ m).arr_ with
    | none => rw [ha] at hk; simp at hk
    | some a =>
      rw [ha] at hk hlen
      simp only [Option.getD_some] at hk hlen ⊢
      have hrep' := hrep
      unfold Matrix.repOk at hrep'
      rw [ha] at hrep'
      simp only at hrep'
      have hcpos : 0 < (σ m).matSize_.cols := lt_of_le_of_ne hc0 (Ne.symm hrep'.2.1)
      have hklt : (k : Int) < (σ m).matSize_.rows * (σ m).matSize_.cols := by
        rw [← hlen]; exact_mod_cast hk
      have hoff : (σ m).offset ((k : Int) / (σ m).matSize_.cols)
          ((k : Int) % (σ m).matSize_.cols) = k := by
        unfold Matrix.offset
        exact Int.ediv_add_emod _ _
      refine ⟨⟨Int.ediv_nonneg (by omega) hc0, Int.ediv_lt_of_lt_mul hcpos hklt,
        Int.emod_nonneg _ hrep'.2.1, Int.emod_lt_of_pos _ hcpos⟩, a[k], ?_, ?_⟩
      · exact List.getElem?_eq_getElem hk
      · show (σ m).call ((k : Int) / (σ m).matSize_.cols) ((k : Int) % (σ m).matSize_.cols) = _
        unfold Matrix.call
        rw [ha]
        simp only [hoff]
        simp [List.getElem?_eq_getElem hk]
  · intro k v hk
    cases ha : (σ m).arr_ with
    | none => rw [ha] at hk; simp at hk
    | some a =>
      rw [ha] at hk hlen
      simp only [Option.getD_some] at hk hlen ⊢
      have hst : (σ m).store k v = some { σ m with arr_ := some (a.set k v) } := by
        simp [Matrix.store, ha, hk]
      have hsame := Matrix.store_sameBut hst
      have hrep2 : (σ.set m { σ m with arr_ := some (a.set k v) } m).repOk :=
        Matrix.repOk_of_same hsame.2.1 hsame.2.2 hrep
      have hoff : (σ m).offset ((k : Int) / (σ m).matSize_.cols)
          ((k : Int) % (σ m).matSize_.cols) = k := by
        unfold Matrix.offset
        exact Int.ediv_add_emod _ _
      refine ⟨σ.set m { σ m with arr_ := some (a.set k v) }, by simp [Matrix.writeAt, hst],
        ?_, ?_⟩
      · rw [Store.set_same]
        show Matrix.call _ ((k : Int) / (σ m).matSize_.cols)
          ((k : Int) % (σ m).matSize_.cols) = _
        unfold Matrix.call
        simp only
        have hoff' : Matrix.offset { σ m with arr_ := some (a.set k v) }
            ((k : Int) / (σ m).matSize_.cols) ((k : Int) % (σ m).matSize_.cols) = k := hoff
        simp only [hoff']
        simp [List.getElem?_set, hk]
      · obtain ⟨hit2, _⟩ := Matrix.iterate_spec (σ.set m { σ m with arr_ := some (a.set k v) })
          m fuel hrep2 (by rw [hsame.2.1]; exact hfuel)
        rw [hit2, Store.set_same]
        rfl

/-- Witness of C17: iterating the 2x2 matrix `0` of `store22`. -/
theorem C17_iteration_witness :
    ∃ ys, Matrix.iterate store22 0 5 = .ok store22 ys ∧
      ((Matrix.iterate store22 0 5).andThen fun σ1 _ => Matrix.iterate σ1 0 5)
        = .ok store22 ys ∧
      (ys.length : Int) = (store22 0).size.rows * (store22 0).size.cols ∧
      (∀ k : Nat, k < ys.length →
        (store22 0).size.inRange ((k : Int) / (store22 0).size.cols)
          ((k : Int) % (store22 0).size.cols) ∧
        ∃ y, ys[k]? = some y ∧
          (store22 0).call ((k : Int) / (store22 0).size.cols)
            ((k : Int) % (store22 0).size.cols) = some y) ∧
      (∀ (k : Nat) (v : Int), k < ys.length →
        ∃ σ', Matrix.writeAt store22 0 k v = .ok σ' () ∧
          (σ' 0).call ((k : Int) / (store22 0).size.cols)
            ((k : Int) % (store22 0).size.cols) = some v ∧
          Matrix.iterate σ' 0 5 = .ok σ' (ys.set k v)) :=
  C17_iteration store22 0 5 (by decide) (by decide) (by decide)

/-- C18. Evaluation of a well-formed expression never leaves bounds: for an expression built
over the store and an index pair inside its size, every leaf access of the evaluation lies
inside the shape of its leaf, reads the buffer at the offset `cols * i + j` with
`0 <= cols * i + j < rows * cols`, inside the buffer, and so has a value; the evaluation
itself has a value. -/
theorem C18_in_bounds [Add T] (σ : Store T) (e : Expr) (r c : Int) (hwf : Expr.wf σ e)
    (hin : (Expr.size σ e).inRange r c) :
    (∀ acc ∈ Expr.accesses e r c,
      (σ acc.1).size.inRange acc.2.1 acc.2.2 ∧
      (σ acc.1).offset acc.2.1 acc.2.2 = (σ acc.1).size.cols * acc.2.1 + acc.2.2 ∧
      0 ≤ (σ acc.1).offset acc.2.1 acc.2.2 ∧
      (σ acc.1).offset acc.2.1 acc.2.2 < (σ acc.1).size.rows * (σ acc.1).size.cols ∧
      (∃ a, (σ acc.1).arr_ = some a ∧ (σ acc.1).offset acc.2.1 acc.2.2 < a.length) ∧
      ∃ v, (σ acc.1).call acc.2.1 acc.2.2 = some v) ∧
    ∃ v, Expr.call σ e r c = some v := by
  refine ⟨?_, Expr.call_isSome hwf hin⟩
  intro acc hacc
  have hr := Expr.accesses_inRange hwf hin acc hacc
  have hok := Expr.accesses_repOk hwf r c acc hacc
  have hb := Matrix.offset_in_buffer hok hr
  exact ⟨hr, rfl, hb.1, hb.2.1, hb.2.2, Matrix.cell_isSome hok hr⟩

/-- Witness of C18: `(mat 0 + transpose(mat 0)) + mat 1` over `store22` at `(1, 0)`. -/
theorem C18_in_bounds_witness :
    (∀ acc ∈ Expr.accesses (.add (.add (.mat 0) (.transpose (.mat 0))) (.mat 1)) 1 0,
      (store22 acc.1).size.inRange acc.2.1 acc.2.2 ∧
      (store22 acc.1).offset acc.2.1 acc.2.2 = (store22 acc.1).size.cols * acc.2.1 + acc.2.2 ∧
      0 ≤ (store22 acc.1).offset acc.2.1 acc.2.2 ∧
      (store22 acc.1).offset acc.2.1 acc.2.2 <
        (store22 acc.1).size.rows * (store22 acc.1).size.cols ∧
      (∃ a, (store22 acc.1).arr_ = some a ∧ (store22 acc.1).offset acc.2.1 acc.2.2 < a.length) ∧
      ∃ v, (store22 acc.1).call acc.2.1 acc.2.2 = some v) ∧
    ∃ v, Expr.call store22 (.add (.add (.mat 0) (.transpose (.mat 0))) (.mat 1)) 1 0 = some v :=
  C18_in_bounds store22 (.add (.add (.mat 0) (.transpose (.mat 0))) (.mat 1)) 1 0 (by decide)
    (by decide)

/-- C19. Element write touches exactly one cell: for a matrix `m` in its class invariant and
an index pair `(i, j)` inside its shape, the write `m(i, j) = v` returns; afterwards `m(i, j)`
reads `v`, every other cell inside the shape reads what it read before, the shape is
unchanged and so is every other matrix; the offset map `(i, j) -> cols * i + j` is injective
on the index pairs inside the shape. -/
theorem C19_write_one_cell (σ : Store T) (m : Nat) (i j : Int) (v : T)
    (hrep : (σ m).repOk) (hin : (σ m).size.inRange i j) :
    ∃ σ', Matrix.write σ m i j v = .ok σ' () ∧
      (σ' m).call i j = some v ∧
      (∀ i' j', (σ m).size.inRange i' j' → (i', j') ≠ (i, j) →
        (σ' m).call i' j' = (σ m).call i' j') ∧
      (σ' m).size = (σ m).size ∧ (∀ k, k ≠ m → σ' k = σ k) ∧
      ∀ i1 j1 i2 j2, (σ m).size.inRange i1 j1 → (σ m).size.inRange i2 j2 →
        (σ m).offset i1 j1 = (σ m).offset i2 j2 → i1 = i2 ∧ j1 = j2 := by
  obtain ⟨m', hput, hshape, _⟩ := Matrix.put_isSome hrep hin v
  refine ⟨σ.set m m', by simp [Matrix.write, hput], ?_, ?_, ?_, ?_, ?_⟩
  · rw [Store.set_same, Matrix.call_put hput i j]
    simp
  · intro i' j' hin' hne
    rw [Store.set_same, Matrix.call_put hput i' j']
    have hoff : ¬ (σ m).offset i' j' = (σ m).offset i j := by
      intro heq
      obtain ⟨hi, hj⟩ := offset_inj hin'.2.2.1 hin'.2.2.2 hin.2.2.1 hin.2.2.2 heq
      exact hne (by rw [hi, hj])
    simp [hoff]
  · rw [Store.set_same]
    exact hshape
  · intro k hk
    exact Store.set_other σ m' hk
  · intro i1 j1 i2 j2 h1 h2 heq
    exact offset_inj h1.2.2.1 h1.2.2.2 h2.2.2.1 h2.2.2.2 heq

/-- Witness of C19: the write `m(1, 0) = 9` on the 2x2 matrix `0` of `store22`. -/
theorem C19_write_one_cell_witness :
    ∃ σ', Matrix.write store22 0 1 0 9 = .ok σ' () ∧
      (σ' 0).call 1 0 = some 9 ∧
      (∀ i' j', (store22 0).size.inRange i' j' → (i', j') ≠ (1, 0) →
        (σ' 0).call i' j' = (store22 0).call i' j') ∧
      (σ' 0).size = (store22 0).size ∧ (∀ k, k ≠ 0 → σ' k = store22 k) ∧
      ∀ i1 j1 i2 j2, (store22 0).size.inRange i1 j1 → (store22 0).size.inRange i2 j2 →
        (store22 0).offset i1 j1 = (store22 0).offset i2 j2 → i1 = i2 ∧ j1 = j2 :=
  C19_write_one_cell store22 0 1 0 9 (by decide) (by decide)

/-- C20. Self-referencing assignment is correct for transposition-free expressions: for a
matrix `m` in its class invariant with a non-negative shape and an expression `e` built over
the store from leaves and `MatrixAdd` nodes only, with `e.size() == m.size()`, in which `m`
may be a leaf any number of times, the assignment `m = e` returns once the fuel exceeds both
dimensions, and leaves in every cell of `m` inside the shape the value `e` had at that index
pair before the assignment. -/
theorem C20_self_assign_transpose_free [Add T] (σ : Store T) (m : Nat) (e : Expr)
    (fuel : Nat) (hwf : Expr.wf σ e) (hrep : (σ m).repOk)
    (hsz : (σ m).size = Expr.size σ e) (htf : Expr.transposeFree e = true)
    (hr0 : 0 ≤ (σ m).size.rows) (hc0 : 0 ≤ (σ m).size.cols)
    (hfr : (σ m).size.rows < fuel) (hfc : (σ m).size.cols < fuel) :
    ∃ σ', Matrix.assignExpr σ m e fuel = .ok σ' () ∧
      (σ' m).size = (σ m).size ∧
      ∀ r c, (σ m).size.inRange r c →
        ∃ v, Expr.call σ e r c = some v ∧ (σ' m).call r c = some v := by
  obtain ⟨σ', hrun, _, hsh, _, hcells⟩ :=
    Matrix.assign_from_mat_expression_spec σ m e fuel hwf hrep hsz
      (Expr.straight_of_transposeFree m htf) hr0 hc0 hfr hfc
  refine ⟨σ', ?_, hsh, ?_⟩
  · simp only [Matrix.assignExpr, hsz, ne_eq, not_true_eq_false, if_false]
    exact hrun
  · intro r c hin
    obtain ⟨v, hv⟩ := Expr.call_isSome hwf (r := r) (c := c) (by rw [← hsz]; exact hin)
    exact ⟨v, hv, by rw [hcells r c hin, hv]⟩

/-- Witness of C20: `M = (M + M) + B` over `store22`, with `M` the matrix `0` and `B` the
matrix `1`. -/
theorem C20_self_assign_transpose_free_witness :
    ∃ σ', Matrix.assignExpr store22 0 (.add (.add (.mat 0) (.mat 0)) (.mat 1)) 3 = .ok σ' () ∧
      (σ' 0).size = (store22 0).size ∧
      ∀ r c, (store22 0).size.inRange r c →
        ∃ v, Expr.call store22 (.add (.add (.mat 0) (.mat 0)) (.mat 1)) r c = some v ∧
          (σ' 0).call r c = some v :=
  C20_self_assign_transpose_free store22 0 (.add (.add (.mat 0) (.mat 0)) (.mat 1)) 3
    (by decide) (by decide) (by decide) (by decide) (by decide) (by decide) (by decide)
    (by decide)

end Claims

end met
